import Mathlib

/-!
# Waveform-Synthesizer: verification of the extraction and synthesis pipeline

Shallow embedding of the image-to-waveform pipeline:
percentile statistics, the center-of-mass trace tracker, the confidence
trimmer, waveform post-processing (gap interpolation, DC centering, endpoint
anchoring, zero-crossing phase alignment) and the harmonic synthesizer.

Pixel samples are modelled as natural numbers (8-bit channel values), all
floating-point arithmetic as exact arithmetic over a linear ordered field
(rationals or reals); the JavaScript `NaN` "missing" marker becomes `Option`.
-/

set_option maxHeartbeats 1000000

/-- A captured RGBA pixel buffer, reduced to the parts the pipeline reads:
its dimensions and the red-channel byte of each pixel, indexed by the flat
row-major pixel index `y * width + x` (the source reads `data[4 * i]`). -/
structure ImageData where
  width : ℤ
  height : ℤ
  data : ℕ → ℕ

/-- Number of pixels of the buffer (`data.length / 4` in the source). -/
def ImageData.pixelCount (img : ImageData) : ℕ :=
  (img.width * img.height).toNat

/-- The per-pixel grayscale scalars collected by `getGrayPercentile`
(one red-channel value per pixel, in pixel order). -/
def grayValues (img : ImageData) : List ℕ :=
  (List.range img.pixelCount).map img.data

/-- `getGrayPercentile(imageData, percentile)`: clamp the percentile to
`[0, 100]`, collect one scalar per pixel, sort ascending, and index at
`floor(p/100 * (N-1))`. -/
def getGrayPercentile {α : Type} [LinearOrderedField α] [FloorRing α]
    (img : ImageData) (percentile : α) : ℕ :=
  let p := max 0 (min 100 percentile)
  let values := (grayValues img).insertionSort (· ≤ ·)
  let index := (Int.floor ((p / 100) * ((values.length : α) - 1))).toNat
  values.getD index 0

section PercentileLemmas

/-- Entries of a `≤`-sorted list are monotone in the index. -/
theorem sorted_getD_mono {l : List ℕ} (hs : l.Sorted (· ≤ ·)) {i j : ℕ}
    (hij : i ≤ j) (hj : j < l.length) (d : ℕ) : l.getD i d ≤ l.getD j d := by
  have hi : i < l.length := lt_of_le_of_lt hij hj
  rw [List.getD_eq_getElem l d hi, List.getD_eq_getElem l d hj]
  rcases eq_or_lt_of_le hij with rfl | hlt
  · exact le_refl _
  · exact List.pairwise_iff_getElem.mp hs i j hi hj hlt

end PercentileLemmas

section PercentileTheorem

variable {α : Type} [LinearOrderedField α] [FloorRing α]

/-- The clamped-percentile index is monotone in the percentile. -/
theorem percentileIndex_mono {p q : α} (hpq : p ≤ q) {N : ℕ}
    (hN : 1 ≤ N) :
    (Int.floor ((p / 100) * ((N : α) - 1))).toNat ≤
      (Int.floor ((q / 100) * ((N : α) - 1))).toNat := by
  have hbase : (0 : α) ≤ (N : α) - 1 := by
    have : (1 : α) ≤ (N : α) := by exact_mod_cast hN
    linarith
  have hmul : (p / 100) * ((N : α) - 1) ≤ (q / 100) * ((N : α) - 1) := by
    apply mul_le_mul_of_nonneg_right _ hbase
    apply div_le_div_of_nonneg_right hpq
    norm_num
  exact Int.toNat_le_toNat (Int.floor_le_floor hmul)

/-- At percentile 100 the index is exactly `N - 1`. -/
theorem percentileIndex_hundred {N : ℕ} (hN : 1 ≤ N) :
    (Int.floor (((100 : α) / 100) * ((N : α) - 1))).toNat = N - 1 := by
  have : ((100 : α) / 100) * ((N : α) - 1) = (((N : ℤ) - 1 : ℤ) : α) := by
    push_cast; ring
  rw [this, Int.floor_intCast]
  omega

/-- The clamped-percentile index stays below `N` when `p ≤ 100`. -/
theorem percentileIndex_lt {p : α} (hq : p ≤ 100) {N : ℕ} (hN : 1 ≤ N) :
    (Int.floor ((p / 100) * ((N : α) - 1))).toNat < N := by
  have hbase : (0 : α) ≤ (N : α) - 1 := by
    have : (1 : α) ≤ (N : α) := by exact_mod_cast hN
    linarith
  have hle : (p / 100) * ((N : α) - 1) ≤ (((N : ℤ) - 1 : ℤ) : α) := by
    have h1 : p / 100 ≤ 1 := by
      rw [div_le_one (by norm_num : (0 : α) < 100)]; linarith
    calc (p / 100) * ((N : α) - 1) ≤ 1 * ((N : α) - 1) :=
          mul_le_mul_of_nonneg_right h1 hbase
      _ = (((N : ℤ) - 1 : ℤ) : α) := by push_cast; ring
  have := Int.floor_le_floor hle
  rw [Int.floor_intCast] at this
  omega

/-- Unfolding of `getGrayPercentile` for an unclamped percentile. -/
theorem getGrayPercentile_eval (img : ImageData) {p : α} (h0 : 0 ≤ p)
    (h100 : p ≤ 100) :
    getGrayPercentile img p =
      ((grayValues img).insertionSort (· ≤ ·)).getD
        (Int.floor ((p / 100) *
          ((((grayValues img).insertionSort (· ≤ ·)).length : α) - 1))).toNat 0 := by
  unfold getGrayPercentile
  rw [min_eq_right h100, max_eq_right h0]

/-- **C8.** For every non-empty grayscale buffer the percentile utility is
monotone in the percentile argument (`percentile(buf,0) ≤ percentile(buf,50)
≤ percentile(buf,100)`), `percentile(buf,100)` equals the maximum red-channel
value present in the buffer, and for every `p ∈ [0,100]` the result equals
the ascending-sorted per-pixel values indexed at `floor(p/100 * (N-1))`. -/
theorem getGrayPercentile_monotone_and_max (img : ImageData)
    (hN : 0 < img.pixelCount) :
    (getGrayPercentile img (0 : α) ≤ getGrayPercentile img (50 : α) ∧
      getGrayPercentile img (50 : α) ≤ getGrayPercentile img (100 : α)) ∧
    ((∀ v ∈ grayValues img, v ≤ getGrayPercentile img (100 : α)) ∧
      getGrayPercentile img (100 : α) ∈ grayValues img) ∧
    (∀ p : α, 0 ≤ p → p ≤ 100 →
      getGrayPercentile img p =
        ((grayValues img).insertionSort (· ≤ ·)).getD
          (Int.floor ((p / 100) * ((img.pixelCount : α) - 1))).toNat 0) := by
  have hlenGray : (grayValues img).length = img.pixelCount := by
    simp [grayValues]
  have hlen : ((grayValues img).insertionSort (· ≤ ·)).length = img.pixelCount := by
    rw [List.length_insertionSort, hlenGray]
  have hsort : ((grayValues img).insertionSort (· ≤ ·)).Sorted (· ≤ ·) :=
    List.sorted_insertionSort _ _
  have hperm : List.Perm ((grayValues img).insertionSort (· ≤ ·)) (grayValues img) :=
    List.perm_insertionSort _ _
  have hN1 : 1 ≤ img.pixelCount := hN
  have hval : ∀ p : α, 0 ≤ p → p ≤ 100 →
      getGrayPercentile img p =
        ((grayValues img).insertionSort (· ≤ ·)).getD
          (Int.floor ((p / 100) * ((img.pixelCount : α) - 1))).toNat 0 := by
    intro p h0 h100
    rw [getGrayPercentile_eval img h0 h100, hlen]
  refine ⟨⟨?_, ?_⟩, ⟨?_, ?_⟩, hval⟩
  · rw [hval 0 le_rfl (by norm_num), hval 50 (by norm_num) (by norm_num)]
    apply sorted_getD_mono hsort
      (percentileIndex_mono (by norm_num) hN1)
    rw [hlen]
    exact percentileIndex_lt (by norm_num) hN1
  · rw [hval 50 (by norm_num) (by norm_num), hval 100 (by norm_num) le_rfl]
    apply sorted_getD_mono hsort
      (percentileIndex_mono (by norm_num) hN1)
    rw [hlen]
    exact percentileIndex_lt le_rfl hN1
  · intro v hv
    rw [hval 100 (by norm_num) le_rfl, percentileIndex_hundred hN1]
    have hvL : v ∈ (grayValues img).insertionSort (· ≤ ·) := hperm.mem_iff.mpr hv
    obtain ⟨i, hi, hiv⟩ := List.getElem_of_mem hvL
    have : ((grayValues img).insertionSort (· ≤ ·)).getD i 0 = v := by
      rw [List.getD_eq_getElem _ _ hi, hiv]
    rw [← this]
    apply sorted_getD_mono hsort (by omega : i ≤ img.pixelCount - 1)
    rw [hlen]; omega
  · rw [hval 100 (by norm_num) le_rfl, percentileIndex_hundred hN1]
    apply hperm.mem_iff.mp
    have hlt : img.pixelCount - 1 < ((grayValues img).insertionSort (· ≤ ·)).length := by
      rw [hlen]; omega
    rw [List.getD_eq_getElem _ _ hlt]
    exact List.getElem_mem hlt

end PercentileTheorem

/-- A concrete two-pixel buffer used as witness input. -/
def tinyBuffer : ImageData :=
  { width := 2, height := 1, data := fun i => if i = 0 then 7 else 3 }

/-- Witness for the percentile theorem at a concrete two-pixel buffer. -/
theorem getGrayPercentile_monotone_and_max_witness :
    0 < tinyBuffer.pixelCount ∧
      getGrayPercentile tinyBuffer (100 : ℚ) ∈ grayValues tinyBuffer :=
  ⟨by decide, (getGrayPercentile_monotone_and_max tinyBuffer (by decide)).2.1.2⟩

section HarmonicSynth

/-- Inner correlation loop of `buildPeriodicWaveFromSamples`: accumulate
`sample[i] * cos(2*pi*harmonic*i/N)` over all samples. -/
noncomputable def cosineSum (samples : List ℝ) (harmonic : ℕ) : ℝ :=
  (List.range samples.length).foldl
    (fun acc i => acc + samples.getD i 0 *
      Real.cos (2 * Real.pi * harmonic * i / samples.length)) 0

/-- Inner correlation loop of `buildPeriodicWaveFromSamples`: accumulate
`sample[i] * sin(2*pi*harmonic*i/N)` over all samples. -/
noncomputable def sineSum (samples : List ℝ) (harmonic : ℕ) : ℝ :=
  (List.range samples.length).foldl
    (fun acc i => acc + samples.getD i 0 *
      Real.sin (2 * Real.pi * harmonic * i / samples.length)) 0

/-- The coefficient array written by the outer harmonic loop: a
zero-initialised array of `harmonicCount + 1` entries whose entry `h`, for
`h = 1..harmonicCount`, is overwritten with `coeff h`. -/
def writeHarmonics (harmonicCount : ℕ) (coeff : ℕ → ℝ) : List ℝ :=
  (List.range harmonicCount).foldl
    (fun arr k => arr.set (k + 1) (coeff (k + 1)))
    (List.replicate (harmonicCount + 1) 0)

/-- `buildPeriodicWaveFromSamples(samples)`: `null` when fewer than 4 samples
arrive or no harmonic fits; otherwise the `(real, imag)` coefficient pair
handed to `createPeriodicWave`. -/
noncomputable def buildPeriodicWaveFromSamples (samples : List ℝ) : Option (List ℝ × List ℝ) :=
  if samples.length < 4 then none
  else
    let sampleCount := samples.length
    let harmonicCount := min 128 (sampleCount / 2)
    if harmonicCount < 1 then none
    else
      let norm : ℝ := 2 / sampleCount
      some (writeHarmonics harmonicCount (fun h => norm * cosineSum samples h),
            writeHarmonics harmonicCount (fun h => norm * sineSum samples h))

/-- A left fold that adds `g i` for `i` below `n` computes the finite sum. -/
theorem foldl_add_eq_sum (g : ℕ → ℝ) (n : ℕ) (init : ℝ) :
    (List.range n).foldl (fun acc i => acc + g i) init =
      init + ∑ i in Finset.range n, g i := by
  induction n generalizing init with
  | zero => simp
  | succ n ih =>
    rw [List.range_succ, List.foldl_append, ih, Finset.sum_range_succ]
    simp [add_assoc]

/-- The harmonic write loop preserves the array length. -/
theorem foldl_set_length (coeff : ℕ → ℝ) (l : List ℝ) (ks : List ℕ) :
    (ks.foldl (fun arr k => arr.set (k + 1) (coeff (k + 1))) l).length =
      l.length := by
  induction ks generalizing l with
  | nil => rfl
  | cons k ks ih => simp [List.foldl_cons, ih]

/-- Indexing the array produced by the harmonic write loop over
`List.range n`: positions `1..n` (when in bounds) hold the written
coefficient, all other positions keep the initial contents. -/
theorem foldl_set_getD (coeff : ℕ → ℝ) (l : List ℝ) (n j : ℕ) :
    ((List.range n).foldl (fun arr k => arr.set (k + 1) (coeff (k + 1))) l).getD j 0 =
      if 1 ≤ j ∧ j ≤ n ∧ j < l.length then coeff j else l.getD j 0 := by
  induction n with
  | zero =>
    simp only [List.range_zero, List.foldl_nil]
    have : ¬(1 ≤ j ∧ j ≤ 0 ∧ j < l.length) := by omega
    rw [if_neg this]
  | succ n ih =>
    rw [List.range_succ, List.foldl_append, List.foldl_cons, List.foldl_nil]
    have hlen : ((List.range n).foldl
        (fun arr k => arr.set (k + 1) (coeff (k + 1))) l).length = l.length :=
      foldl_set_length coeff l _
    by_cases hj : j = n + 1
    · subst hj
      by_cases hb : n + 1 < l.length
      · have hb2 : n + 1 < ((List.range n).foldl
            (fun arr k => arr.set (k + 1) (coeff (k + 1))) l).length := by
          rw [hlen]; exact hb
        rw [List.getD_eq_getElem _ _ (by simpa using hb2)]
        rw [List.getElem_set_self]
        have : 1 ≤ n + 1 ∧ n + 1 ≤ n + 1 ∧ n + 1 < l.length := by omega
        rw [if_pos this]
      · have hout : ((((List.range n).foldl
            (fun arr k => arr.set (k + 1) (coeff (k + 1))) l).set (n + 1)
              (coeff (n + 1)))).length ≤ n + 1 := by
          simp only [List.length_set, hlen]; omega
        rw [List.getD_eq_default _ _ hout]
        have hout2 : l.length ≤ n + 1 := by omega
        have : ¬(1 ≤ n + 1 ∧ n + 1 ≤ n + 1 ∧ n + 1 < l.length) := by omega
        rw [if_neg this, List.getD_eq_default _ _ hout2]
    · by_cases hb : j < l.length
      · have hb2 : j < (((List.range n).foldl
            (fun arr k => arr.set (k + 1) (coeff (k + 1))) l).set (n + 1)
              (coeff (n + 1))).length := by
          simp only [List.length_set, hlen]; exact hb
        rw [List.getD_eq_getElem _ _ hb2]
        rw [List.getElem_set_of_ne (fun h => hj h.symm)]
        rw [← List.getD_eq_getElem _ 0 (by simpa [hlen] using hb), ih]
        by_cases hin : 1 ≤ j ∧ j ≤ n ∧ j < l.length
        · rw [if_pos hin, if_pos (by omega)]
        · rw [if_neg hin, if_neg (by omega)]
      · have hout : ((((List.range n).foldl
            (fun arr k => arr.set (k + 1) (coeff (k + 1))) l).set (n + 1)
              (coeff (n + 1)))).length ≤ j := by
          simp only [List.length_set, hlen]; omega
        rw [List.getD_eq_default _ _ hout]
        have : ¬(1 ≤ j ∧ j ≤ n + 1 ∧ j < l.length) := by omega
        rw [if_neg this, List.getD_eq_default _ _ (by omega)]

/-- Entry `j` of the written coefficient array: the coefficient at
`1..harmonicCount`, zero everywhere else. -/
theorem writeHarmonics_getD (harmonicCount : ℕ) (coeff : ℕ → ℝ) (j : ℕ) :
    (writeHarmonics harmonicCount coeff).getD j 0 =
      if 1 ≤ j ∧ j ≤ harmonicCount then coeff j else 0 := by
  unfold writeHarmonics
  rw [foldl_set_getD]
  have hrep : (List.replicate (harmonicCount + 1) (0 : ℝ)).getD j 0 = 0 := by
    by_cases hb : j < harmonicCount + 1
    · rw [List.getD_eq_getElem _ _ (by simpa using hb), List.getElem_replicate]
    · rw [List.getD_eq_default _ _ (by simpa using hb)]
  by_cases hin : 1 ≤ j ∧ j ≤ harmonicCount
  · rw [if_pos (by simp only [List.length_replicate]; omega), if_pos hin]
  · rw [if_neg (by simp only [List.length_replicate]; omega), if_neg hin, hrep]

/-- Length of the written coefficient array. -/
theorem writeHarmonics_length (harmonicCount : ℕ) (coeff : ℕ → ℝ) :
    (writeHarmonics harmonicCount coeff).length = harmonicCount + 1 := by
  unfold writeHarmonics
  rw [foldl_set_length, List.length_replicate]

end HarmonicSynth

/-- **C1.** For every finite sample sequence: with fewer than 4 samples (or
`min(128, floor(N/2)) < 1`) the harmonic synthesis stage fails and produces
no coefficients; otherwise it produces cosine and sine coefficient arrays of
length `harmonicCount + 1` with `harmonicCount = min(128, floor(N/2))`,
index 0 of both arrays zero, and for every harmonic `h` in
`1..harmonicCount`, `cos[h] = (2/N) * Σ sample[i]*cos(2*pi*h*i/N)` and
`sin[h] = (2/N) * Σ sample[i]*sin(2*pi*h*i/N)` over all `N` samples. -/
theorem buildPeriodicWaveFromSamples_spec (samples : List ℝ) :
    (buildPeriodicWaveFromSamples samples = none ↔
      samples.length < 4 ∨ min 128 (samples.length / 2) < 1) ∧
    (4 ≤ samples.length →
      ∃ re im, buildPeriodicWaveFromSamples samples = some (re, im) ∧
        re.length = min 128 (samples.length / 2) + 1 ∧
        im.length = min 128 (samples.length / 2) + 1 ∧
        re.getD 0 0 = 0 ∧ im.getD 0 0 = 0 ∧
        (∀ h, 1 ≤ h → h ≤ min 128 (samples.length / 2) →
          re.getD h 0 = (2 / samples.length) *
            ∑ i in Finset.range samples.length,
              samples.getD i 0 * Real.cos (2 * Real.pi * h * i / samples.length) ∧
          im.getD h 0 = (2 / samples.length) *
            ∑ i in Finset.range samples.length,
              samples.getD i 0 * Real.sin (2 * Real.pi * h * i / samples.length))) := by
  constructor
  · unfold buildPeriodicWaveFromSamples
    by_cases h4 : samples.length < 4
    · simp only [if_pos h4, true_iff]
      exact Or.inl h4
    · have hhc : 1 ≤ min 128 (samples.length / 2) := by omega
      simp only [if_neg h4]
      rw [if_neg (by omega)]
      constructor
      · intro h; exact absurd h (by simp)
      · intro h; omega
  · intro h4
    refine ⟨writeHarmonics (min 128 (samples.length / 2))
        (fun h => (2 / samples.length) * cosineSum samples h),
      writeHarmonics (min 128 (samples.length / 2))
        (fun h => (2 / samples.length) * sineSum samples h), ?_, ?_, ?_, ?_, ?_, ?_⟩
    · unfold buildPeriodicWaveFromSamples
      rw [if_neg (by omega), if_neg (by omega)]
    · exact writeHarmonics_length _ _
    · exact writeHarmonics_length _ _
    · rw [writeHarmonics_getD, if_neg (by omega)]
    · rw [writeHarmonics_getD, if_neg (by omega)]
    · intro h h1 hhc
      constructor
      · rw [writeHarmonics_getD, if_pos ⟨h1, hhc⟩]
        unfold cosineSum
        rw [foldl_add_eq_sum, zero_add]
      · rw [writeHarmonics_getD, if_pos ⟨h1, hhc⟩]
        unfold sineSum
        rw [foldl_add_eq_sum, zero_add]

/-- Witness for the harmonic-synthesis theorem on a concrete 4-sample
sequence: the stage succeeds there. -/
theorem buildPeriodicWaveFromSamples_spec_witness :
    buildPeriodicWaveFromSamples [1, 0, -1, 0] ≠ none := by
  obtain ⟨re, im, heq, -⟩ :=
    (buildPeriodicWaveFromSamples_spec [1, 0, -1, 0]).2 (by decide)
  rw [heq]
  simp

section PrepareWaveform

variable {α : Type} [LinearOrderedField α]

/-- Peak scan of `prepareWaveformForAudio`: the running maximum of the
absolute sample values, starting from 0. -/
def waveformPeak (w : List α) : α :=
  w.foldl (fun peak v => if |v| > peak then |v| else peak) 0

/-- `prepareWaveformForAudio(sourceWaveform)`: `null` for an empty or
near-silent input; otherwise the samples, attenuated by the peak exactly when
the peak exceeds 1. -/
def prepareWaveformForAudio (w : List α) : Option (List α) :=
  if w.length = 0 then none
  else if waveformPeak w < 1 / 1000000 then none
  else if waveformPeak w > 1 then
    some (w.map (fun v => v * (1 / waveformPeak w)))
  else some w

/-- One step of the peak scan is a `max`. -/
theorem peakStep_eq_max (peak v : α) :
    (if |v| > peak then |v| else peak) = max peak |v| := by
  rcases le_or_lt |v| peak with h | h
  · rw [if_neg (not_lt.mpr h), max_eq_left h]
  · rw [if_pos h, max_eq_right h.le]

/-- The peak scan never drops below its initial accumulator. -/
theorem init_le_foldl_peak (w : List α) (init : α) :
    init ≤ w.foldl (fun peak v => if |v| > peak then |v| else peak) init := by
  induction w generalizing init with
  | nil => exact le_rfl
  | cons v w ih =>
    rw [List.foldl_cons]
    exact le_trans (by rw [peakStep_eq_max]; exact le_max_left _ _) (ih _)

/-- Every sample's absolute value is bounded by the scanned peak. -/
theorem abs_le_waveformPeak {w : List α} {v : α} (hv : v ∈ w) :
    |v| ≤ waveformPeak w := by
  unfold waveformPeak
  generalize (0 : α) = init
  induction w generalizing init with
  | nil => cases hv
  | cons u w ih =>
    rw [List.foldl_cons]
    rcases List.mem_cons.mp hv with rfl | hv2
    · exact le_trans (by rw [peakStep_eq_max]; exact le_max_right _ _)
        (init_le_foldl_peak _ _)
    · exact ih hv2 _

/-- The scanned peak is never negative. -/
theorem waveformPeak_nonneg (w : List α) : 0 ≤ waveformPeak w :=
  init_le_foldl_peak w 0

/-- **C6.** The pre-synthesis peak normalization fails (produces no
waveform) exactly when the maximum absolute sample value is below the
near-zero epsilon `1e-6`; otherwise, with a peak at most 1 every sample is
passed through unchanged, with a peak above 1 every sample is divided by the
peak, no sample's magnitude ever grows, and every output sample's magnitude
is at most 1. -/
theorem prepareWaveformForAudio_spec (w : List α) :
    (prepareWaveformForAudio w = none ↔ waveformPeak w < 1 / 1000000) ∧
    (1 / 1000000 ≤ waveformPeak w →
      (waveformPeak w ≤ 1 → prepareWaveformForAudio w = some w) ∧
      (1 < waveformPeak w →
        prepareWaveformForAudio w =
          some (w.map (fun v => v * (1 / waveformPeak w)))) ∧
      (∀ out, prepareWaveformForAudio w = some out →
        (∀ i : ℕ, |out.getD i 0| ≤ |w.getD i 0|) ∧ ∀ v ∈ out, |v| ≤ 1)) := by
  have hnil : w.length = 0 → waveformPeak w < 1 / 1000000 := by
    intro h
    rw [List.length_eq_zero.mp h]
    show (0 : α) < 1 / 1000000
    norm_num
  constructor
  · unfold prepareWaveformForAudio
    by_cases h0 : w.length = 0
    · simp only [if_pos h0, true_iff]
      exact hnil h0
    · by_cases heps : waveformPeak w < 1 / 1000000
      · rw [if_neg h0, if_pos heps]
        simp only [true_iff]
        simpa using heps
      · simp only [if_neg h0, if_neg heps]
        constructor
        · intro hcontra
          by_cases hgt : waveformPeak w > 1 <;> simp [hgt] at hcontra
        · intro hcontra; exact absurd hcontra heps
  · intro heps
    have h0 : ¬w.length = 0 := by
      intro h; exact absurd (hnil h) (not_lt.mpr heps)
    have heps2 : ¬waveformPeak w < 1 / 1000000 := not_lt.mpr heps
    refine ⟨?_, ?_, ?_⟩
    · intro hle
      unfold prepareWaveformForAudio
      rw [if_neg h0, if_neg heps2, if_neg (not_lt.mpr hle)]
    · intro hgt
      unfold prepareWaveformForAudio
      rw [if_neg h0, if_neg heps2, if_pos hgt]
    · intro out hout
      unfold prepareWaveformForAudio at hout
      rw [if_neg h0, if_neg heps2] at hout
      have hpeakpos : 0 < waveformPeak w := by
        have : (0 : α) < 1 / 1000000 := by norm_num
        linarith
      by_cases hgt : waveformPeak w > 1
      · rw [if_pos hgt] at hout
        have hout2 : out = w.map (fun v => v * (1 / waveformPeak w)) :=
          (Option.some_inj.mp hout).symm
        subst hout2
        constructor
        · intro i
          by_cases hi : i < w.length
          · rw [List.getD_eq_getElem _ _ (by simpa using hi),
              List.getElem_map, ← List.getD_eq_getElem _ 0 hi]
            rw [abs_mul, abs_of_pos (by positivity : (0:α) < 1 / waveformPeak w)]
            calc |w.getD i 0| * (1 / waveformPeak w)
                ≤ |w.getD i 0| * 1 := by
                  apply mul_le_mul_of_nonneg_left _ (abs_nonneg _)
                  rw [div_le_one hpeakpos]; linarith
              _ = |w.getD i 0| := mul_one _
          · rw [List.getD_eq_default _ _ (by simpa using not_lt.mp hi)]
            simp
        · intro v hv
          obtain ⟨u, hu, huv⟩ := List.mem_map.mp hv
          subst huv
          rw [abs_mul, abs_of_pos (by positivity : (0:α) < 1 / waveformPeak w)]
          rw [← le_div_iff₀ (by positivity : (0:α) < 1 / waveformPeak w)]
          rw [one_div_one_div]
          exact abs_le_waveformPeak hu
      · rw [if_neg hgt] at hout
        have hout2 : out = w := (Option.some_inj.mp hout).symm
        subst hout2
        exact ⟨fun i => le_rfl, fun v hv =>
          le_trans (abs_le_waveformPeak hv) (not_lt.mp hgt)⟩

/-- Witness for the peak-normalization theorem on a concrete 2-sample
sequence with peak 2: the stage attenuates by the peak. -/
theorem prepareWaveformForAudio_spec_witness :
    prepareWaveformForAudio ([2, 1] : List ℚ) =
      some ([2, 1].map (fun v => v * (1 / waveformPeak ([2, 1] : List ℚ)))) := by
  have hpeak : waveformPeak ([2, 1] : List ℚ) = 2 := by
    unfold waveformPeak
    norm_num [List.foldl_cons, List.foldl_nil, abs_two, abs_one]
  exact ((prepareWaveformForAudio_spec ([2, 1] : List ℚ)).2
    (by rw [hpeak]; norm_num)).2.1 (by rw [hpeak]; norm_num)

end PrepareWaveform

section PostProcess

variable {α : Type} [LinearOrderedField α]

/-- `rotateWaveformInPlace(waveform, startIndex)`: circular shift bringing
the (length-normalized) start index to position 0; a no-op below 2 samples
or at a zero shift. -/
def rotateWaveform (w : List α) (startIndex : ℕ) : List α :=
  if w.length < 2 then w
  else if startIndex % w.length = 0 then w
  else (List.range w.length).map
    (fun i => w.getD ((startIndex % w.length + i) % w.length) 0)

/-- A zero rotation leaves the waveform unchanged. -/
theorem rotateWaveform_zero (w : List α) : rotateWaveform w 0 = w := by
  unfold rotateWaveform
  by_cases h2 : w.length < 2
  · rw [if_pos h2]
  · rw [if_neg h2, if_pos (Nat.zero_mod _)]

/-- One step of the strict-improvement minimum scan shared by both loops of
`alignWaveformStartToZeroCrossing`: `none` models the `Infinity` initial
score, candidates are positions satisfying `P`, and the recorded index is
`choose i`. -/
def argminStep (P : ℕ → Prop) [DecidablePred P] (score : ℕ → α)
    (choose : ℕ → ℕ) (best : Option (α × ℕ)) (i : ℕ) : Option (α × ℕ) :=
  if P i then
    match best with
    | none => some (score i, choose i)
    | some (s, idx) =>
      if score i < s then some (score i, choose i) else some (s, idx)
  else best

/-- The minimum scan yields `none` exactly when no position qualifies. -/
theorem argminFold_eq_none_iff (P : ℕ → Prop) [DecidablePred P]
    (score : ℕ → α) (choose : ℕ → ℕ) (m : ℕ) :
    (List.range m).foldl (argminStep P score choose) none = none ↔
      ∀ i, i < m → ¬P i := by
  induction m with
  | zero => simp
  | succ m ih =>
    rw [List.range_succ, List.foldl_append, List.foldl_cons, List.foldl_nil]
    constructor
    · intro h i him
      cases hm : (List.range m).foldl (argminStep P score choose) none with
      | none =>
        rw [hm] at h
        unfold argminStep at h
        by_cases hP : P m
        · rw [if_pos hP] at h; exact absurd h (by simp)
        · rcases Nat.lt_succ_iff_lt_or_eq.mp him with hlt | rfl
          · exact ih.mp hm i hlt
          · exact hP
      | some p =>
        rw [hm] at h
        unfold argminStep at h
        by_cases hP : P m
        · rw [if_pos hP] at h
          obtain ⟨s, idx⟩ := p
          by_cases himp : score m < s <;> simp [himp] at h
        · rw [if_neg hP] at h; exact absurd h (by simp)
    · intro h
      have hm : (List.range m).foldl (argminStep P score choose) none = none :=
        ih.mpr (fun i hi => h i (Nat.lt_succ_of_lt hi))
      rw [hm]
      unfold argminStep
      rw [if_neg (h m (Nat.lt_succ_self m))]

/-- The minimum scan's `some` result comes from a qualifying position whose
score is minimal, strictly smaller than every earlier qualifying score. -/
theorem argminFold_spec (P : ℕ → Prop) [DecidablePred P] (score : ℕ → α)
    (choose : ℕ → ℕ) (m : ℕ) (s : α) (idx : ℕ)
    (h : (List.range m).foldl (argminStep P score choose) none = some (s, idx)) :
    ∃ c, c < m ∧ P c ∧ s = score c ∧ idx = choose c ∧
      (∀ j, j < m → P j → score c ≤ score j) ∧
      (∀ j, j < c → P j → score c < score j) := by
  induction m generalizing s idx with
  | zero => simp at h
  | succ m ih =>
    rw [List.range_succ, List.foldl_append, List.foldl_cons, List.foldl_nil] at h
    cases hm : (List.range m).foldl (argminStep P score choose) none with
    | none =>
      rw [hm] at h
      unfold argminStep at h
      by_cases hP : P m
      · rw [if_pos hP] at h
        obtain ⟨hs, hidx⟩ : score m = s ∧ choose m = idx := by
          have := Option.some_inj.mp h
          exact ⟨congrArg Prod.fst this, congrArg Prod.snd this⟩
        refine ⟨m, Nat.lt_succ_self m, hP, hs.symm, hidx.symm, ?_, ?_⟩
        · intro j hj hPj
          rcases Nat.lt_succ_iff_lt_or_eq.mp hj with hlt | rfl
          · exact absurd hPj ((argminFold_eq_none_iff P score choose m).mp hm j hlt)
          · exact le_rfl
        · intro j hj hPj
          exact absurd hPj ((argminFold_eq_none_iff P score choose m).mp hm j hj)
      · rw [if_neg hP] at h; exact absurd h (by simp)
    | some p =>
      obtain ⟨s0, idx0⟩ := p
      rw [hm] at h
      obtain ⟨c, hcm, hPc, hs0, hidx0, hmin, hstrict⟩ := ih s0 idx0 hm
      unfold argminStep at h
      by_cases hP : P m
      · rw [if_pos hP] at h
        replace h : (if score m < s0 then some (score m, choose m)
            else some (s0, idx0)) = some (s, idx) := h
        by_cases himp : score m < s0
        · rw [if_pos himp] at h
          obtain ⟨hs, hidx⟩ : score m = s ∧ choose m = idx := by
            have := Option.some_inj.mp h
            exact ⟨congrArg Prod.fst this, congrArg Prod.snd this⟩
          refine ⟨m, Nat.lt_succ_self m, hP, hs.symm, hidx.symm, ?_, ?_⟩
          · intro j hj hPj
            rcases Nat.lt_succ_iff_lt_or_eq.mp hj with hlt | rfl
            · exact le_trans (le_of_lt (hs0 ▸ himp)) (hmin j hlt hPj)
            · exact le_rfl
          · intro j hj hPj
            exact lt_of_lt_of_le (hs0 ▸ himp) (hmin j hj hPj)
        · rw [if_neg himp] at h
          obtain ⟨hs, hidx⟩ : s0 = s ∧ idx0 = idx := by
            have := Option.some_inj.mp h
            exact ⟨congrArg Prod.fst this, congrArg Prod.snd this⟩
          refine ⟨c, Nat.lt_succ_of_lt hcm, hPc, hs ▸ hs0, hidx ▸ hidx0, ?_, hstrict⟩
          intro j hj hPj
          rcases Nat.lt_succ_iff_lt_or_eq.mp hj with hlt | rfl
          · exact hmin j hlt hPj
          · rw [← hs0]
            exact not_lt.mp himp
      · rw [if_neg hP] at h
        obtain ⟨hs, hidx⟩ : s0 = s ∧ idx0 = idx := by
          have := Option.some_inj.mp h
          exact ⟨congrArg Prod.fst this, congrArg Prod.snd this⟩
        refine ⟨c, Nat.lt_succ_of_lt hcm, hPc, hs ▸ hs0, hidx ▸ hidx0, ?_, hstrict⟩
        intro j hj hPj
        rcases Nat.lt_succ_iff_lt_or_eq.mp hj with hlt | rfl
        · exact hmin j hlt hPj
        · exact absurd hPj hP

end PostProcess

section Align

variable {α : Type} [LinearOrderedField α]

/-- Loop body of the rising-zero-crossing scan in
`alignWaveformStartToZeroCrossing`: skip positions without a crossing, then
falling crossings; otherwise keep the crossing with the strictly lowest
`|a| + |b|` score, recorded as whichever bracketing sample is closer to
zero. -/
def crossingStep (w : List α) (best : Option (α × ℕ)) (i : ℕ) : Option (α × ℕ) :=
  let a := w.getD i 0
  let b := w.getD (i + 1) 0
  if ¬((a ≤ 0 ∧ 0 ≤ b) ∨ (0 ≤ a ∧ b ≤ 0)) then best
  else if ¬(a ≤ 0 ∧ 0 ≤ b) then best
  else
    let score := |a| + |b|
    match best with
    | none => some (score, if |a| ≤ |b| then i else i + 1)
    | some (s, idx) =>
      if score < s then some (score, if |a| ≤ |b| then i else i + 1)
      else some (s, idx)

/-- Loop body of the fallback scan: keep the strictly closest-to-zero
sample. -/
def closestToZeroStep (w : List α) (best : Option (α × ℕ)) (i : ℕ) :
    Option (α × ℕ) :=
  let score := |w.getD i 0|
  match best with
  | none => some (score, i)
  | some (s, idx) => if score < s then some (score, i) else some (s, idx)

/-- `alignWaveformStartToZeroCrossing(waveform)`: rotate the selected rising
zero-crossing (or, failing that, the globally closest-to-zero sample) to
index 0. No-op below 4 samples. -/
def alignWaveformStartToZeroCrossing (w : List α) : List α :=
  if w.length < 4 then w
  else
    match (List.range (w.length - 1)).foldl (crossingStep w) none with
    | some (_, idx) => if 0 < idx then rotateWaveform w idx else w
    | none =>
      match (List.range w.length).foldl (closestToZeroStep w) none with
      | some (_, idx) => if 0 < idx then rotateWaveform w idx else w
      | none => w

/-- The crossing scan step is the generic minimum-scan step over rising
crossings. -/
theorem crossingStep_eq (w : List α) (best : Option (α × ℕ)) (i : ℕ) :
    crossingStep w best i =
      argminStep (fun i => w.getD i 0 ≤ 0 ∧ 0 ≤ w.getD (i + 1) 0)
        (fun i => |w.getD i 0| + |w.getD (i + 1) 0|)
        (fun i => if |w.getD i 0| ≤ |w.getD (i + 1) 0| then i else i + 1)
        best i := by
  unfold crossingStep argminStep
  by_cases hr : w.getD i 0 ≤ 0 ∧ 0 ≤ w.getD (i + 1) 0
  · rw [if_neg (not_not_intro (Or.inl hr)), if_neg (not_not_intro hr), if_pos hr]
  · rw [if_neg hr]
    by_cases hf : 0 ≤ w.getD i 0 ∧ w.getD (i + 1) 0 ≤ 0
    · rw [if_neg (not_not_intro (Or.inr hf)), if_pos hr]
    · rw [if_pos (by tauto)]

/-- The fallback scan step is the generic minimum-scan step over all
positions. -/
theorem closestToZeroStep_eq (w : List α) (best : Option (α × ℕ)) (i : ℕ) :
    closestToZeroStep w best i =
      argminStep (fun _ => True) (fun i => |w.getD i 0|) (fun i => i) best i := by
  unfold closestToZeroStep argminStep
  rw [if_pos trivial]

end Align

section AlignTheorem

variable {α : Type} [LinearOrderedField α]

/-- **C2 (amended).** For every waveform of length ≥ 4 containing a rising
zero-crossing (a sample ≤ 0 immediately followed by one ≥ 0), the
phase-alignment step rotates the sequence so that the rising crossing with
the minimal bracketing score `|a| + |b|` — the earliest among equal scores,
not the earliest crossing — becomes index 0, choosing whichever of its two
bracketing samples is closer to zero (the left one on ties) as the new
start; for every such waveform with no rising zero-crossing, it rotates so
that the sample globally closest to zero (earliest among ties) becomes
index 0. -/
theorem alignWaveform_spec (w : List α) (h4 : 4 ≤ w.length) :
    ((∃ i, i + 1 < w.length ∧ w.getD i 0 ≤ 0 ∧ 0 ≤ w.getD (i + 1) 0) →
      ∃ c, (c + 1 < w.length ∧ w.getD c 0 ≤ 0 ∧ 0 ≤ w.getD (c + 1) 0) ∧
        (∀ j, j + 1 < w.length → w.getD j 0 ≤ 0 → 0 ≤ w.getD (j + 1) 0 →
          |w.getD c 0| + |w.getD (c + 1) 0| ≤ |w.getD j 0| + |w.getD (j + 1) 0|) ∧
        (∀ j, j < c → j + 1 < w.length → w.getD j 0 ≤ 0 → 0 ≤ w.getD (j + 1) 0 →
          |w.getD c 0| + |w.getD (c + 1) 0| < |w.getD j 0| + |w.getD (j + 1) 0|) ∧
        alignWaveformStartToZeroCrossing w =
          rotateWaveform w
            (if |w.getD c 0| ≤ |w.getD (c + 1) 0| then c else c + 1)) ∧
    ((∀ i, i + 1 < w.length → ¬(w.getD i 0 ≤ 0 ∧ 0 ≤ w.getD (i + 1) 0)) →
      ∃ m, m < w.length ∧
        (∀ j, j < w.length → |w.getD m 0| ≤ |w.getD j 0|) ∧
        (∀ j, j < m → |w.getD m 0| < |w.getD j 0|) ∧
        alignWaveformStartToZeroCrossing w = rotateWaveform w m) := by
  have hfold : ∀ m : ℕ, (List.range m).foldl (crossingStep w) none =
      (List.range m).foldl
        (argminStep (fun i => w.getD i 0 ≤ 0 ∧ 0 ≤ w.getD (i + 1) 0)
          (fun i => |w.getD i 0| + |w.getD (i + 1) 0|)
          (fun i => if |w.getD i 0| ≤ |w.getD (i + 1) 0| then i else i + 1))
        none := by
    intro m
    have : crossingStep w =
        argminStep (fun i => w.getD i 0 ≤ 0 ∧ 0 ≤ w.getD (i + 1) 0)
          (fun i => |w.getD i 0| + |w.getD (i + 1) 0|)
          (fun i => if |w.getD i 0| ≤ |w.getD (i + 1) 0| then i else i + 1) :=
      funext fun best => funext fun i => crossingStep_eq w best i
    rw [this]
  have hfold2 : ∀ m : ℕ, (List.range m).foldl (closestToZeroStep w) none =
      (List.range m).foldl
        (argminStep (fun _ => True) (fun i => |w.getD i 0|) (fun i => i))
        none := by
    intro m
    have : closestToZeroStep w =
        argminStep (fun _ => True) (fun i => |w.getD i 0|) (fun i => i) :=
      funext fun best => funext fun i => closestToZeroStep_eq w best i
    rw [this]
  have halign : alignWaveformStartToZeroCrossing w =
      match (List.range (w.length - 1)).foldl (crossingStep w) none with
      | some (_, idx) => if 0 < idx then rotateWaveform w idx else w
      | none =>
        match (List.range w.length).foldl (closestToZeroStep w) none with
        | some (_, idx) => if 0 < idx then rotateWaveform w idx else w
        | none => w := by
    unfold alignWaveformStartToZeroCrossing
    rw [if_neg (by omega)]
  constructor
  · intro hex
    obtain ⟨i0, hi0, hr0⟩ := hex
    cases hres : (List.range (w.length - 1)).foldl (crossingStep w) none with
    | none =>
      rw [hfold] at hres
      have := (argminFold_eq_none_iff _ _ _ _).mp hres i0 (by omega)
      exact absurd hr0 this
    | some p =>
      obtain ⟨s, idx⟩ := p
      rw [hfold] at hres
      obtain ⟨c, hcm, hPc, hs, hidx, hmin, hstrict⟩ :=
        argminFold_spec _ _ _ _ _ _ hres
      rw [← hfold] at hres
      have hval : alignWaveformStartToZeroCrossing w =
          if 0 < idx then rotateWaveform w idx else w := by
        rw [halign, hres]
      refine ⟨c, ⟨by omega, hPc⟩, ?_, ?_, ?_⟩
      · intro j hj hja hjb
        exact hmin j (by omega) ⟨hja, hjb⟩
      · intro j hj hja hjb hjc
        exact hstrict j hj ⟨hjb, hjc⟩
      · rw [hval, hidx]
        by_cases hc0 : 0 < (if |w.getD c 0| ≤ |w.getD (c + 1) 0| then c else c + 1)
        · rw [if_pos hc0]
        · rw [if_neg hc0]
          have h0 : (if |w.getD c 0| ≤ |w.getD (c + 1) 0| then c else c + 1) = 0 := by
            omega
          rw [h0, rotateWaveform_zero]
  · intro hnone
    have hres : (List.range (w.length - 1)).foldl (crossingStep w) none = none := by
      rw [hfold]
      apply (argminFold_eq_none_iff _ _ _ _).mpr
      intro i hi
      exact hnone i (by omega)
    cases hres2 : (List.range w.length).foldl (closestToZeroStep w) none with
    | none =>
      rw [hfold2] at hres2
      have := (argminFold_eq_none_iff _ _ _ _).mp hres2 0 (by omega)
      exact absurd trivial this
    | some p =>
      obtain ⟨s, idx⟩ := p
      rw [hfold2] at hres2
      obtain ⟨c, hcm, -, hs, hidx, hmin, hstrict⟩ :=
        argminFold_spec _ _ _ _ _ _ hres2
      rw [← hfold2] at hres2
      have hval : alignWaveformStartToZeroCrossing w =
          if 0 < idx then rotateWaveform w idx else w := by
        rw [halign, hres, hres2]
      refine ⟨c, hcm, ?_, ?_, ?_⟩
      · intro j hj
        exact hmin j hj trivial
      · intro j hj
        exact hstrict j hj trivial
      · rw [hval, hidx]
        by_cases hc0 : 0 < c
        · rw [if_pos hc0]
        · rw [if_neg hc0]
          have h0 : c = 0 := by omega
          rw [h0, rotateWaveform_zero]

/-- **C2 counterexample.** On `[-2, 1, 0, 0]` the earliest rising
zero-crossing is at index 0 with bracketing samples -2 and 1, whose
closer-to-zero sample is index 1, so the claim demands the rotation
`[1, 0, 0, -2]`; the code instead selects the rising crossing at index 2
(score `|0| + |0| = 0`, smaller than `|-2| + |1| = 3`) and produces
`[0, 0, -2, 1]`. -/
theorem alignWaveform_counterexample :
    alignWaveformStartToZeroCrossing ([-2, 1, 0, 0] : List ℚ) = [0, 0, -2, 1] ∧
      alignWaveformStartToZeroCrossing ([-2, 1, 0, 0] : List ℚ) ≠
        [1, 0, 0, -2] := by
  have hfold : (List.range 3).foldl (crossingStep ([-2, 1, 0, 0] : List ℚ)) none =
      some (0, 2) := by
    rw [(by decide : List.range 3 = [0, 1, 2])]
    norm_num [crossingStep, List.foldl_cons, List.foldl_nil]
  have heval : alignWaveformStartToZeroCrossing ([-2, 1, 0, 0] : List ℚ) =
      rotateWaveform ([-2, 1, 0, 0] : List ℚ) 2 := by
    unfold alignWaveformStartToZeroCrossing
    rw [if_neg (by norm_num),
      (by norm_num : ([-2, 1, 0, 0] : List ℚ).length - 1 = 3), hfold]
    rfl
  have hrot : rotateWaveform ([-2, 1, 0, 0] : List ℚ) 2 = [0, 0, -2, 1] := by
    unfold rotateWaveform
    rw [if_neg (by norm_num), if_neg (by norm_num),
      (by norm_num : ([-2, 1, 0, 0] : List ℚ).length = 4),
      (by decide : List.range 4 = [0, 1, 2, 3])]
    norm_num
  rw [heval, hrot]
  refine ⟨rfl, ?_⟩
  intro h
  simp at h

/-- Witness for the amended alignment theorem at `[-2, 1, 0, 0]`: the
selected crossing is the minimal-score one at index 2. -/
theorem alignWaveform_spec_witness :
    alignWaveformStartToZeroCrossing ([-2, 1, 0, 0] : List ℚ) =
      rotateWaveform ([-2, 1, 0, 0] : List ℚ) 2 := by
  obtain ⟨c, ⟨hclt, ha, hb⟩, hmin, hstrict, heq⟩ :=
    (alignWaveform_spec ([-2, 1, 0, 0] : List ℚ) (by decide)).1
      ⟨2, by decide, by decide, by decide⟩
  have hc2 : c = 2 := by
    have hc3 : c < 3 := by
      have hl := hclt
      simp only [List.length_cons, List.length_nil] at hl
      omega
    interval_cases c
    · exact absurd (hmin 2 (by decide) (by decide) (by decide)) (by norm_num)
    · exact absurd ha (by decide)
    · rfl
  subst hc2
  rw [if_pos (by decide)] at heq
  exact heq

end AlignTheorem

section Interpolate

/-- `interpolationMaxGap` from `WAVEFORM_POSTPROCESSING_CONFIG`. -/
def interpolationMaxGap : ℕ := 30

/-- Inner skip loop of `interpolateWaveform`: the first index at or after
`i` holding a present value, or the length when the tail is all missing. -/
def findRunEnd {β : Type} (w : List (Option β)) (i : ℕ) : ℕ :=
  if h : i < w.length then
    if (w.getD i none).isSome then i else findRunEnd w (i + 1)
  else i
termination_by w.length - i

theorem findRunEnd_ge {β : Type} (w : List (Option β)) (i : ℕ) :
    i ≤ findRunEnd w i := by
  induction i using findRunEnd.induct w with
  | case1 i h hs => rw [findRunEnd, dif_pos h, if_pos hs]
  | case2 i h hs ih => rw [findRunEnd, dif_pos h, if_neg hs]; omega
  | case3 i h => rw [findRunEnd, dif_neg h]

theorem findRunEnd_le {β : Type} (w : List (Option β)) (i : ℕ)
    (hi : i ≤ w.length) : findRunEnd w i ≤ w.length := by
  induction i using findRunEnd.induct w with
  | case1 i h hs => rw [findRunEnd, dif_pos h, if_pos hs]; omega
  | case2 i h hs ih => rw [findRunEnd, dif_pos h, if_neg hs]; exact ih (by omega)
  | case3 i h => rw [findRunEnd, dif_neg h]; omega

theorem findRunEnd_none {β : Type} (w : List (Option β)) (i : ℕ) :
    ∀ k, i ≤ k → k < findRunEnd w i → w.getD k none = none := by
  induction i using findRunEnd.induct w with
  | case1 i h hs =>
    rw [findRunEnd, dif_pos h, if_pos hs]
    intro k hk1 hk2; omega
  | case2 i h hs ih =>
    rw [findRunEnd, dif_pos h, if_neg hs]
    intro k hk1 hk2
    rcases Nat.eq_or_lt_of_le hk1 with rfl | hk3
    · exact Option.not_isSome_iff_eq_none.mp hs
    · exact ih k hk3 hk2
  | case3 i h =>
    rw [findRunEnd, dif_neg h]
    intro k hk1 hk2; omega

theorem findRunEnd_isSome {β : Type} (w : List (Option β)) (i : ℕ)
    (hi : i ≤ w.length) :
    findRunEnd w i = w.length ∨ (w.getD (findRunEnd w i) none).isSome := by
  induction i using findRunEnd.induct w with
  | case1 i h hs => rw [findRunEnd, dif_pos h, if_pos hs]; exact Or.inr hs
  | case2 i h hs ih => rw [findRunEnd, dif_pos h, if_neg hs]; exact ih (by omega)
  | case3 i h => rw [findRunEnd, dif_neg h]; left; omega

theorem findRunEnd_gt {β : Type} (w : List (Option β)) (i : ℕ)
    (h : i < w.length) (hn : w.getD i none = none) : i < findRunEnd w i := by
  rw [findRunEnd, dif_pos h, if_neg (by rw [hn]; simp)]
  have := findRunEnd_ge w (i + 1)
  omega

end Interpolate

section InterpolateFill

variable {α : Type} [LinearOrderedField α]

/-- The inner fill loop of `interpolateWaveform`: positions
`start + 1 .. start + gap` receive the value linearly interpolated between
`startValue` and `endValue`; all other positions are untouched. -/
def fillGap (w : List (Option α)) (start gap : ℕ) (startValue endValue : α) :
    List (Option α) :=
  (List.range w.length).map (fun k =>
    if start + 1 ≤ k ∧ k ≤ start + gap then
      some (startValue + (endValue - startValue) *
        (((k - start : ℕ) : α) / ((gap : α) + 1)))
    else w.getD k none)

theorem fillGap_length (w : List (Option α)) (start gap : ℕ)
    (sv ev : α) : (fillGap w start gap sv ev).length = w.length := by
  unfold fillGap
  rw [List.length_map, List.length_range]

theorem fillGap_getD (w : List (Option α)) (start gap : ℕ) (sv ev : α)
    (k : ℕ) :
    (fillGap w start gap sv ev).getD k none =
      if k < w.length ∧ start + 1 ≤ k ∧ k ≤ start + gap then
        some (sv + (ev - sv) * (((k - start : ℕ) : α) / ((gap : α) + 1)))
      else w.getD k none := by
  by_cases hk : k < w.length
  · have hk2 : k < (fillGap w start gap sv ev).length := by
      rw [fillGap_length]; exact hk
    rw [List.getD_eq_getElem _ _ hk2]
    unfold fillGap
    simp only [List.getElem_map, List.getElem_range]
    by_cases hin : start + 1 ≤ k ∧ k ≤ start + gap
    · rw [if_pos hin, if_pos ⟨hk, hin⟩]
    · rw [if_neg hin, if_neg (by tauto)]
  · rw [List.getD_eq_default _ _ (by rw [fillGap_length]; omega),
      if_neg (by tauto), List.getD_eq_default _ _ (by omega)]

/-- The run-walking loop of `interpolateWaveform`: skip present entries;
at a missing entry find the end of its run and fill it when it is bracketed
(`start >= 0`, `end < length`) and no longer than `interpolationMaxGap`,
then continue after the run. -/
def interpolateAux (w : List (Option α)) (i : ℕ) : List (Option α) :=
  if h : i < w.length then
    if hs : (w.getD i none).isSome then interpolateAux w (i + 1)
    else
      let e := findRunEnd w i
      if 1 ≤ i ∧ e < w.length ∧ e - i ≤ interpolationMaxGap then
        interpolateAux
          (fillGap w (i - 1) (e - i) ((w.getD (i - 1) none).getD 0)
            ((w.getD e none).getD 0)) e
      else interpolateAux w e
  else w
termination_by w.length - i
decreasing_by
  · omega
  · rw [fillGap_length]
    have h1 : i < findRunEnd w i :=
      findRunEnd_gt w i h (Option.not_isSome_iff_eq_none.mp hs)
    omega
  · have h1 : i < findRunEnd w i :=
      findRunEnd_gt w i h (Option.not_isSome_iff_eq_none.mp hs)
    have h2 : findRunEnd w i ≤ w.length := findRunEnd_le w i (by omega)
    omega

/-- `interpolateWaveform(waveform)`: the full left-to-right pass. -/
def interpolateWaveform (w : List (Option α)) : List (Option α) :=
  interpolateAux w 0

end InterpolateFill

section InterpolateSpec

variable {α : Type} [LinearOrderedField α]

/-- A maximal run of missing entries occupying exactly the indices
`[i, e)`: nonempty, within bounds, every entry missing, bracketed on the
left by a present entry (or the sequence start) and on the right by a
present entry (or the sequence end). -/
def IsMissingRun {β : Type} (w : List (Option β)) (i e : ℕ) : Prop :=
  i < e ∧ e ≤ w.length ∧
    (∀ k, i ≤ k → k < e → w.getD k none = none) ∧
    (i = 0 ∨ (w.getD (i - 1) none).isSome) ∧
    (e = w.length ∨ (w.getD e none).isSome)

/-- Invariant characterisation of the run-walking loop from position `i`:
assuming the entry left of any missing entry at `i` is present, the loop
preserves the length, never touches positions before `i` or present
positions, and treats every maximal missing run at or after `i` exactly as
the gap-interpolation contract prescribes. -/
theorem interpolateAux_spec (w : List (Option α)) (i : ℕ) :
    (i < w.length → w.getD i none = none → 1 ≤ i →
      (w.getD (i - 1) none).isSome) →
    ((interpolateAux w i).length = w.length ∧
     (∀ k, k < i → (interpolateAux w i).getD k none = w.getD k none) ∧
     (∀ k, i ≤ k → (w.getD k none).isSome →
       (interpolateAux w i).getD k none = w.getD k none) ∧
     (∀ j e, i ≤ j → IsMissingRun w j e →
       ∀ k, j ≤ k → k < e →
         (interpolateAux w i).getD k none =
           if 1 ≤ j ∧ e < w.length ∧ e - j ≤ interpolationMaxGap then
             some ((w.getD (j - 1) none).getD 0 +
               ((w.getD e none).getD 0 - (w.getD (j - 1) none).getD 0) *
                 (((k - (j - 1) : ℕ) : α) / (((e - j : ℕ) : α) + 1)))
           else none)) := by
  induction w, i using interpolateAux.induct with
  | case1 w i h hs ih =>
    intro hstart
    have hstart2 : i + 1 < w.length → w.getD (i + 1) none = none → 1 ≤ i + 1 →
        (w.getD (i + 1 - 1) none).isSome := by
      intro _ _ _
      simpa using hs
    obtain ⟨ihlen, ihlt, ihsome, ihrun⟩ := ih hstart2
    have heq : interpolateAux w i = interpolateAux w (i + 1) := by
      rw [interpolateAux, dif_pos h, dif_pos hs]
    refine ⟨by rw [heq]; exact ihlen, ?_, ?_, ?_⟩
    · intro k hk
      rw [heq]
      exact ihlt k (by omega)
    · intro k hk hsome
      rcases Nat.eq_or_lt_of_le hk with rfl | hk2
      · rw [heq]
        exact ihlt _ (by omega)
      · rw [heq]
        exact ihsome k (by omega) hsome
    · intro j e hj hrun k hk1 hk2
      rcases Nat.eq_or_lt_of_le hj with rfl | hj2
      · exfalso
        have hcon := hrun.2.2.1 _ le_rfl hrun.1
        rw [hcon] at hs
        simp at hs
      · rw [heq]
        exact ihrun j e (by omega) hrun k hk1 hk2
  | case2 w i h hs e hfill ih =>
    rw [show e = findRunEnd w i from rfl] at hfill ih
    intro hstart
    have hin : w.getD i none = none := Option.not_isSome_iff_eq_none.mp hs
    have hie : i < findRunEnd w i := findRunEnd_gt w i h hin
    have hel : findRunEnd w i ≤ w.length := findRunEnd_le w i (le_of_lt h)
    have hnone : ∀ k, i ≤ k → k < findRunEnd w i → w.getD k none = none :=
      findRunEnd_none w i
    have hesome : (w.getD (findRunEnd w i) none).isSome := by
      rcases findRunEnd_isSome w i (le_of_lt h) with heq2 | hsome
      · omega
      · exact hsome
    have h1i : 1 ≤ i := hfill.1
    have helt : findRunEnd w i < w.length := hfill.2.1
    have hlen2 : (fillGap w (i - 1) (findRunEnd w i - i)
        ((w.getD (i - 1) none).getD 0)
        ((w.getD (findRunEnd w i) none).getD 0)).length = w.length :=
      fillGap_length _ _ _ _ _
    have hagree : ∀ k, findRunEnd w i ≤ k ∨ k < i →
        (fillGap w (i - 1) (findRunEnd w i - i)
          ((w.getD (i - 1) none).getD 0)
          ((w.getD (findRunEnd w i) none).getD 0)).getD k none =
          w.getD k none := by
      intro k hk
      rw [fillGap_getD]
      exact if_neg (by omega)
    have hfillval : ∀ k, i ≤ k → k < findRunEnd w i →
        (fillGap w (i - 1) (findRunEnd w i - i)
          ((w.getD (i - 1) none).getD 0)
          ((w.getD (findRunEnd w i) none).getD 0)).getD k none =
          some ((w.getD (i - 1) none).getD 0 +
            ((w.getD (findRunEnd w i) none).getD 0 -
              (w.getD (i - 1) none).getD 0) *
              (((k - (i - 1) : ℕ) : α) /
                (((findRunEnd w i - i : ℕ) : α) + 1))) := by
      intro k hk1 hk2
      rw [fillGap_getD]
      exact if_pos (by omega)
    have hstart2 : findRunEnd w i <
          (fillGap w (i - 1) (findRunEnd w i - i)
            ((w.getD (i - 1) none).getD 0)
            ((w.getD (findRunEnd w i) none).getD 0)).length →
        (fillGap w (i - 1) (findRunEnd w i - i)
          ((w.getD (i - 1) none).getD 0)
          ((w.getD (findRunEnd w i) none).getD 0)).getD
            (findRunEnd w i) none = none →
        1 ≤ findRunEnd w i →
        ((fillGap w (i - 1) (findRunEnd w i - i)
          ((w.getD (i - 1) none).getD 0)
          ((w.getD (findRunEnd w i) none).getD 0)).getD
            (findRunEnd w i - 1) none).isSome := by
      intro _ hcontra _
      rw [hagree _ (Or.inl le_rfl)] at hcontra
      rw [hcontra] at hesome
      simp at hesome
    obtain ⟨ihlen, ihlt, ihsome, ihrun⟩ := ih hstart2
    have heq : interpolateAux w i = interpolateAux
        (fillGap w (i - 1) (findRunEnd w i - i)
          ((w.getD (i - 1) none).getD 0)
          ((w.getD (findRunEnd w i) none).getD 0)) (findRunEnd w i) := by
      rw [interpolateAux, dif_pos h, dif_neg hs, if_pos hfill]
    refine ⟨by rw [heq, ihlen, hlen2], ?_, ?_, ?_⟩
    · intro k hk
      rw [heq, ihlt k (by omega), hagree k (Or.inr hk)]
    · intro k hk hsome
      have hke : findRunEnd w i ≤ k := by
        by_contra hke
        rw [hnone k hk (by omega)] at hsome
        simp at hsome
      have hk2 : (fillGap w (i - 1) (findRunEnd w i - i)
          ((w.getD (i - 1) none).getD 0)
          ((w.getD (findRunEnd w i) none).getD 0)).getD k none =
          w.getD k none := hagree k (Or.inl hke)
      rw [heq, ihsome k hke (by rw [hk2]; exact hsome), hk2]
    · intro j e hj hrun k hk1 hk2
      obtain ⟨hje, hee, hrnone, hbl, hbr⟩ := hrun
      rcases Nat.eq_or_lt_of_le hj with rfl | hj2
      · -- the run starting at the current position is exactly [i, findRunEnd w i)
        have hee2 : e = findRunEnd w i := by
          by_contra hne
          rcases Nat.lt_or_ge e (findRunEnd w i) with hlt | hge
          · rcases hbr with rfl | hsome2
            · omega
            · rw [hnone e (by omega) hlt] at hsome2
              simp at hsome2
          · have : findRunEnd w i < e := by omega
            have := hrnone (findRunEnd w i) (by omega) this
            rw [this] at hesome
            simp at hesome
        subst hee2
        rw [if_pos ⟨h1i, helt, hfill.2.2⟩, heq,
          ihlt k hk2, hfillval k hk1 hk2]
      · -- a later run: it lies entirely at or after the run end
        have hj1 : 1 ≤ j := by omega
        have hbsome : (w.getD (j - 1) none).isSome := by
          rcases hbl with rfl | hsome2
          · omega
          · exact hsome2
        have hjge : findRunEnd w i + 1 ≤ j := by
          by_contra hjlt
          rw [hnone (j - 1) (by omega) (by omega)] at hbsome
          simp at hbsome
        have hrun2 : IsMissingRun
            (fillGap w (i - 1) (findRunEnd w i - i)
              ((w.getD (i - 1) none).getD 0)
              ((w.getD (findRunEnd w i) none).getD 0)) j e := by
          refine ⟨hje, by rw [hlen2]; exact hee, ?_, ?_, ?_⟩
          · intro m hm1 hm2
            rw [hagree m (Or.inl (by omega))]
            exact hrnone m hm1 hm2
          · right
            rw [hagree (j - 1) (Or.inl (by omega))]
            exact hbsome
          · rcases hbr with rfl | hsome2
            · left; rw [hlen2]
            · right
              rw [hagree e (Or.inl (by omega))]
              exact hsome2
        have hres := ihrun j e (by omega) hrun2 k hk1 hk2
        rw [heq, hres, hlen2, hagree (j - 1) (Or.inl (by omega)),
          hagree e (Or.inl (by omega))]
  | case3 w i h hs e hnotfill ih =>
    rw [show e = findRunEnd w i from rfl] at hnotfill ih
    intro hstart
    have hin : w.getD i none = none := Option.not_isSome_iff_eq_none.mp hs
    have hie : i < findRunEnd w i := findRunEnd_gt w i h hin
    have hel : findRunEnd w i ≤ w.length := findRunEnd_le w i (le_of_lt h)
    have hnone : ∀ k, i ≤ k → k < findRunEnd w i → w.getD k none = none :=
      findRunEnd_none w i
    have hbr2 : findRunEnd w i = w.length ∨
        (w.getD (findRunEnd w i) none).isSome :=
      findRunEnd_isSome w i (le_of_lt h)
    have hstart2 : findRunEnd w i < w.length →
        w.getD (findRunEnd w i) none = none → 1 ≤ findRunEnd w i →
        (w.getD (findRunEnd w i - 1) none).isSome := by
      intro hlt hcontra _
      rcases hbr2 with heq2 | hsome
      · omega
      · rw [hcontra] at hsome
        simp at hsome
    obtain ⟨ihlen, ihlt, ihsome, ihrun⟩ := ih hstart2
    have heq : interpolateAux w i = interpolateAux w (findRunEnd w i) := by
      rw [interpolateAux, dif_pos h, dif_neg hs, if_neg hnotfill]
    refine ⟨by rw [heq, ihlen], ?_, ?_, ?_⟩
    · intro k hk
      rw [heq]
      exact ihlt k (by omega)
    · intro k hk hsome
      have hke : findRunEnd w i ≤ k := by
        by_contra hke
        rw [hnone k hk (by omega)] at hsome
        simp at hsome
      rw [heq]
      exact ihsome k hke hsome
    · intro j e hj hrun k hk1 hk2
      obtain ⟨hje, hee, hrnone, hbl, hbr⟩ := hrun
      rcases Nat.eq_or_lt_of_le hj with rfl | hj2
      · have hee2 : e = findRunEnd w i := by
          by_contra hne
          rcases Nat.lt_or_ge e (findRunEnd w i) with hlt | hge
          · rcases hbr with rfl | hsome2
            · omega
            · rw [hnone e (by omega) hlt] at hsome2
              simp at hsome2
          · have hlt2 : findRunEnd w i < e := by omega
            have h3 := hrnone (findRunEnd w i) (by omega) hlt2
            rcases hbr2 with heq2 | hsome2
            · omega
            · rw [h3] at hsome2
              simp at hsome2
        subst hee2
        rw [if_neg hnotfill, heq, ihlt k hk2]
        exact hnone k hk1 hk2
      · have hbsome : (w.getD (j - 1) none).isSome := by
          rcases hbl with rfl | hsome2
          · omega
          · exact hsome2
        have hjge : findRunEnd w i + 1 ≤ j := by
          by_contra hjlt
          rw [hnone (j - 1) (by omega) (by omega)] at hbsome
          simp at hbsome
        rw [heq]
        exact ihrun j e (by omega) ⟨hje, hee, hrnone, hbl, hbr⟩ k hk1 hk2
  | case4 w i h =>
    intro hstart
    have heq : interpolateAux w i = w := by
      rw [interpolateAux, dif_neg h]
    refine ⟨by rw [heq], ?_, ?_, ?_⟩
    · intro k hk
      rw [heq]
    · intro k hk hsome
      rw [heq]
    · intro j e hj hrun k hk1 hk2
      exfalso
      have := hrun.2.1
      omega

end InterpolateSpec

/-- **C5.** Gap interpolation fills exactly those maximal runs of missing
values that lie strictly between two valid values and whose length is at
most `interpolationMaxGap`, assigning linearly interpolated values between
the two bounding valid samples; maximal runs longer than
`interpolationMaxGap`, and runs touching either end of the sequence, are
left missing, and present samples are never altered. -/
theorem interpolateWaveform_spec {α : Type} [LinearOrderedField α]
    (w : List (Option α)) :
    (∀ k, (w.getD k none).isSome →
      (interpolateWaveform w).getD k none = w.getD k none) ∧
    (∀ i e, IsMissingRun w i e →
      (1 ≤ i ∧ e < w.length ∧ e - i ≤ interpolationMaxGap →
        ∀ k, i ≤ k → k < e →
          (interpolateWaveform w).getD k none =
            some ((w.getD (i - 1) none).getD 0 +
              ((w.getD e none).getD 0 - (w.getD (i - 1) none).getD 0) *
                (((k - (i - 1) : ℕ) : α) / (((e - i : ℕ) : α) + 1)))) ∧
      (¬(1 ≤ i ∧ e < w.length ∧ e - i ≤ interpolationMaxGap) →
        ∀ k, i ≤ k → k < e → (interpolateWaveform w).getD k none = none)) := by
  obtain ⟨hlen, hlt, hsome, hrun⟩ :=
    interpolateAux_spec w 0 (fun _ _ hcon => absurd hcon (by omega))
  refine ⟨?_, ?_⟩
  · intro k hk
    exact hsome k (Nat.zero_le k) hk
  · intro i e hrun2
    constructor
    · intro hcond k hk1 hk2
      have h := hrun i e (Nat.zero_le i) hrun2 k hk1 hk2
      rw [interpolateWaveform, h, if_pos hcond]
    · intro hcond k hk1 hk2
      have h := hrun i e (Nat.zero_le i) hrun2 k hk1 hk2
      rw [interpolateWaveform, h, if_neg hcond]

/-- Witness for the gap-interpolation theorem: the single missing entry of
`[1, missing, 3]` is bracketed, of gap length 1, and is filled with the
midpoint 2. -/
theorem interpolateWaveform_spec_witness :
    (interpolateWaveform ([some 1, none, some 3] : List (Option ℚ))).getD 1
      none = some 2 := by
  have hrun : IsMissingRun ([some 1, none, some 3] : List (Option ℚ)) 1 2 := by
    refine ⟨by omega, by decide, ?_, Or.inr (by decide), Or.inr (by decide)⟩
    intro k h1 h2
    interval_cases k
    decide
  have h := ((interpolateWaveform_spec
      ([some 1, none, some 3] : List (Option ℚ))).2 1 2 hrun).1
      ⟨by omega, by decide, by decide⟩ 1 le_rfl (by omega)
  rw [h]
  norm_num

section Tracker

variable {α : Type} [LinearOrderedField α] [FloorRing α]

/-- `minForegroundCount` from `CENTER_OF_MASS_CONFIG`. -/
def minForegroundCount : ℕ := 3

/-- `medianRadius` from `CENTER_OF_MASS_CONFIG`. -/
def medianRadius : ℕ := 3

/-- `clamp(value, min, max)` over integer pixel coordinates. -/
def clampInt (value lo hi : ℤ) : ℤ :=
  max lo (min hi value)

/-- `computeColumnCOM(x, yMin, yMax)`: brightness-weighted centroid of the
foreground pixels of column `x` over rows `yMin..yMax`; `NaN` (`none`) when
fewer than `minForegroundCount` foreground pixels were seen or the weights
vanish. -/
def computeColumnCOM (img : ImageData) (cutoff : α) (x : ℕ)
    (yMin yMax : ℕ) : Option α :=
  let r := (List.range' yMin (yMax + 1 - yMin)).foldl
    (fun (acc : α × α × ℕ) y =>
      let brightness := img.data (y * img.width.toNat + x)
      if (brightness : α) < cutoff then acc
      else
        ((acc.1 + (brightness : α) / 255,
          acc.2.1 + (y : α) * ((brightness : α) / 255),
          acc.2.2 + 1) : α × α × ℕ))
    ((0, 0, 0) : α × α × ℕ)
  if r.2.2 < minForegroundCount ∨ r.1 ≤ 0 then none
  else some (r.2.1 / r.1)

/-- The banded estimate with full-column fallback for column `x`, given the
two previous raw estimates (prediction, clamped band search, retry over the
whole column height). -/
def columnEstimate (img : ImageData) (cutoff : α) (prev prev2 : Option α)
    (x : ℕ) : Option α :=
  let predictedY : α :=
    match prev, prev2 with
    | some p, some p2 => p + (p - p2)
    | some p, none => p
    | none, _ => (img.height : α) * (1 / 2)
  let yMinBand := clampInt (Int.floor (predictedY - 20)) 0 (img.height - 1)
  let yMaxBand := clampInt (Int.ceil (predictedY + 20)) 0 (img.height - 1)
  match computeColumnCOM img cutoff x yMinBand.toNat yMaxBand.toNat with
  | some v => some v
  | none => computeColumnCOM img cutoff x 0 (img.height - 1).toNat

/-- One column of the tracker's left-to-right pass: banded estimate with
fallback, then the `maxJumpPx` discontinuity rejection against the previous
column's raw value. -/
def traceStep (img : ImageData) (cutoff : α) (acc : List (Option α))
    (x : ℕ) : Option α :=
  let prev := if 0 < x then acc.getD (x - 1) none else none
  let prev2 := if 1 < x then acc.getD (x - 2) none else none
  match columnEstimate img cutoff prev prev2 x with
  | none => none
  | some est =>
    match prev with
    | some p => if |est - p| > 12 then none else some est
    | none => some est

/-- The first `n` columns of the tracker's raw path (before the median
filter and quantization). -/
def tracePathAux (img : ImageData) (cutoff : α) : ℕ → List (Option α)
  | 0 => []
  | n + 1 =>
    tracePathAux img cutoff n ++
      [traceStep img cutoff (tracePathAux img cutoff n) n]

/-- The tracker's complete raw path: one estimate (or `NaN`) per column. -/
def findCenterOfMassTracePathRaw (img : ImageData) (cutoff : α) :
    List (Option α) :=
  tracePathAux img cutoff img.width.toNat

/-- `getMedianOfFiniteWindow(values, start, end)`: the middle of the sorted
present values in the inclusive window, `NaN` (`none`) if the window holds
none. -/
def getMedianOfFiniteWindow (values : List (Option α)) (start fin : ℕ) :
    Option α :=
  let finite := (List.range' start (fin + 1 - start)).filterMap
    (fun k => values.getD k none)
  if finite.length = 0 then none
  else some ((finite.insertionSort (· ≤ ·)).getD (finite.length / 2) 0)

/-- `medianFilterFinite1D(values, radius)`: replace each entry by the median
of the present values in its window, keeping the original entry when the
window has no present value. -/
def medianFilterFinite1D (values : List (Option α)) (radius : ℕ) :
    List (Option α) :=
  if radius ≤ 0 then values
  else (List.range values.length).map (fun i =>
    match getMedianOfFiniteWindow values (i - radius)
        (min (values.length - 1) (i + radius)) with
    | some m => some m
    | none => values.getD i none)

/-- `findCenterOfMassTracePath(imageData, cutoff)`: raw pass, median filter
of radius `medianRadius` over present values only, then rounding to integer
pixels; missing columns become the sentinel -1. -/
def findCenterOfMassTracePath (img : ImageData) (cutoff : α) : List ℤ :=
  (List.range img.width.toNat).map (fun i =>
    match (medianFilterFinite1D (findCenterOfMassTracePathRaw img cutoff)
        medianRadius).getD i none with
    | some v => round v
    | none => -1)

end Tracker

section Trimmer

variable {α : Type} [LinearOrderedField α] [FloorRing α]

/-- `getForegroundDensity(imageData, x, y, radiusX, radiusY, cutoff)`:
fraction of foreground pixels in the clamped window around `(x, y)`. -/
def getForegroundDensity (img : ImageData) (x y : ℤ)
    (radiusX radiusY : ℕ) (cutoff : α) : α :=
  let r := (List.range (2 * radiusY + 1)).foldl
    (fun (acc : ℕ × ℕ) t =>
      let yy := clampInt (y + ((t : ℤ) - radiusY)) 0 (img.height - 1)
      (List.range (2 * radiusX + 1)).foldl
        (fun (acc2 : ℕ × ℕ) s =>
          let xx := clampInt (x + ((s : ℤ) - radiusX)) 0 (img.width - 1)
          let brightness := img.data (yy * img.width + xx).toNat
          (if (brightness : α) ≥ cutoff then acc2.1 + 1 else acc2.1,
            acc2.2 + 1))
        acc)
    ((0, 0) : ℕ × ℕ)
  if 0 < r.2 then (r.1 : α) / (r.2 : α) else 0

/-- `countValidPathPoints(pathY)`: the number of non-sentinel entries. -/
def countValidPathPoints (pathY : List ℤ) : ℕ :=
  pathY.foldl (fun count y => if 0 ≤ y then count + 1 else count) 0

/-- `movingAverage1D(values, radius)`: clamped-window arithmetic mean. -/
def movingAverage1D (values : List α) (radius : ℕ) : List α :=
  if radius ≤ 0 then values
  else (List.range values.length).map (fun i =>
    let start := i - radius
    let fin := min (values.length - 1) (i + radius)
    if 0 < fin + 1 - start then
      ((List.range' start (fin + 1 - start)).foldl
        (fun s j => s + values.getD j 0) 0) / ((fin + 1 - start : ℕ) : α)
    else 0)

/-- The per-column confidence pass of `trimTracePathByConfidence`: 0 for
sentinel columns, otherwise `0.75 * localDensity + 0.25 * continuityScore`,
carrying the previous valid y. -/
def buildConfidence (img : ImageData) (cutoff : α) (pathY : List ℤ) :
    List α :=
  ((List.range img.width.toNat).foldl
    (fun (acc : List α × Option ℤ) x =>
      let y := pathY.getD x (-1)
      if y < 0 then (acc.1 ++ [0], acc.2)
      else
        let localDensity := getForegroundDensity img x y 1 1 cutoff
        let continuityScore : α :=
          match acc.2 with
          | none => 7 / 10
          | some prevY => 1 - min 1 ((|y - prevY| : ℤ) / (12 : α))
        (acc.1 ++ [3 / 4 * localDensity + 1 / 4 * continuityScore], some y))
    (([], none) : List α × Option ℤ)).1

/-- State of the hysteresis span scanner: current mode, backdated span
start, run counters and the spans closed so far. -/
structure SpanState where
  inTrace : Bool
  start : ℤ
  highCount : ℕ
  lowCount : ℕ
  spans : List (ℤ × ℤ)

/-- One column of the hysteresis span scanner of
`trimTracePathByConfidence`. -/
def detectSpansStep (conf : List α) (st : SpanState) (x : ℕ) : SpanState :=
  let c := conf.getD x 0
  if !st.inTrace then
    let highCount := if c ≥ 9 / 20 then st.highCount + 1 else 0
    if 6 ≤ highCount then
      { inTrace := true, start := (x : ℤ) - 6 + 1, highCount := highCount,
        lowCount := 0, spans := st.spans }
    else
      { st with highCount := highCount }
  else
    let lowCount := if c ≤ 7 / 25 then st.lowCount + 1 else 0
    if 8 ≤ lowCount then
      { inTrace := false, start := -1, highCount := 0, lowCount := 0,
        spans := if 0 ≤ st.start ∧ st.start ≤ (x : ℤ) - 8 then
          st.spans ++ [(st.start, (x : ℤ) - 8)] else st.spans }
    else
      { st with lowCount := lowCount }

/-- The full span scan, closing a still-open span at the right edge. -/
def detectSpans (conf : List α) (width : ℕ) : List (ℤ × ℤ) :=
  let st := (List.range width).foldl (detectSpansStep conf)
    { inTrace := false, start := -1, highCount := 0, lowCount := 0,
      spans := [] }
  if st.inTrace ∧ 0 ≤ st.start then st.spans ++ [(st.start, (width : ℤ) - 1)]
  else st.spans

/-- Length of a closed span (inclusive column interval). -/
def spanLength (s : ℤ × ℤ) : ℤ :=
  s.2 - s.1 + 1

/-- The longest closed span (first among equals), if any span closed. -/
def bestSpanOf (spans : List (ℤ × ℤ)) : Option (ℤ × ℤ) :=
  match spans with
  | [] => none
  | s :: rest =>
    some (rest.foldl (fun best t =>
      if spanLength t > spanLength best then t else best) s)

/-- The trimmed path: columns outside the kept span forced to the
sentinel. -/
def trimmedPath (pathY : List ℤ) (best : ℤ × ℤ) : List ℤ :=
  (List.range pathY.length).map (fun (x : ℕ) =>
    if (x : ℤ) < best.1 ∨ best.2 < (x : ℤ) then -1 else pathY.getD x 0)

/-- `trimTracePathByConfidence(pathY, imageData, cutoff)`: keep only the
longest reliable span, falling back to the untrimmed path when no span
closed, the best span is too short, or too few valid columns would
survive. -/
def trimTracePathByConfidence (img : ImageData) (cutoff : α)
    (pathY : List ℤ) : List ℤ :=
  if pathY.length = 0 then pathY
  else
    match bestSpanOf (detectSpans
        (movingAverage1D (buildConfidence img cutoff pathY) 4)
        img.width.toNat) with
    | none => pathY
    | some best =>
      if spanLength best < max 12 (Int.floor ((img.width : α) * (3 / 20))) then
        pathY
      else if (countValidPathPoints (trimmedPath pathY best) : ℤ) <
          max 10 (Int.floor ((img.width : α) * (2 / 25))) then pathY
      else trimmedPath pathY best

end Trimmer

section Extractor

variable {α : Type} [LinearOrderedField α] [FloorRing α]

/-- `extractWaveformFromImageData(imageData, options)`: `null` on invalid
dimensions, otherwise the full pipeline: tracker, trimmer, amplitude
mapping, gap interpolation, zero-fill with DC centering, endpoint
anchoring, phase alignment, endpoint anchoring again. -/
def zeroAndCenterWaveform (w : List (Option α)) : List α :=
  let filled := w.map (fun v => v.getD 0)
  let mean := if 0 < filled.length then
    (filled.foldl (· + ·) 0) / (filled.length : α) else 0
  filled.map (fun v => v - mean)

/-- `anchorWaveformEndpointsToZero(waveform)`: subtract the linear ramp
between the first and last sample. -/
def anchorWaveformEndpointsToZero (w : List α) : List α :=
  if w.length < 2 then w
  else
    (List.range w.length).map (fun i =>
      w.getD i 0 - (w.getD 0 0 +
        (w.getD (w.length - 1) 0 - w.getD 0 0) *
          ((i : α) / ((w.length - 1 : ℕ) : α))))

/-- The waveform extraction entry point. -/
def extractWaveformFromImageData (img : ImageData) (cutoff : α) :
    Option (List α) :=
  if img.width ≤ 0 ∨ img.height ≤ 0 then none
  else
    some (anchorWaveformEndpointsToZero
      (alignWaveformStartToZeroCrossing
        (anchorWaveformEndpointsToZero
          (zeroAndCenterWaveform
            (interpolateWaveform
              ((List.range img.width.toNat).map (fun x =>
                if 0 ≤ (trimTracePathByConfidence img cutoff
                    (findCenterOfMassTracePath img cutoff)).getD x 0 then
                  some (1 - (((trimTracePathByConfidence img cutoff
                    (findCenterOfMassTracePath img cutoff)).getD x 0 : α) /
                      (img.height : α)) * 2)
                else none)))))))

end Extractor

section TrimmerTheorems

variable {α : Type} [LinearOrderedField α] [FloorRing α]

theorem trimmedPath_length (pathY : List ℤ) (best : ℤ × ℤ) :
    (trimmedPath pathY best).length = pathY.length := by
  unfold trimmedPath
  rw [List.length_map, List.length_range]

theorem trimmedPath_getD (pathY : List ℤ) (best : ℤ × ℤ) (i : ℕ)
    (hi : i < pathY.length) :
    (trimmedPath pathY best).getD i (-1) =
      if (i : ℤ) < best.1 ∨ best.2 < (i : ℤ) then -1
      else pathY.getD i (-1) := by
  have hi2 : i < (trimmedPath pathY best).length := by
    rw [trimmedPath_length]; exact hi
  rw [List.getD_eq_getElem _ _ hi2]
  unfold trimmedPath
  simp only [List.getElem_map, List.getElem_range]
  by_cases hcond : (i : ℤ) < best.1 ∨ best.2 < (i : ℤ)
  · rw [if_pos hcond, if_pos hcond]
  · rw [if_neg hcond, if_neg hcond, List.getD_eq_getElem _ _ hi,
      List.getD_eq_getElem _ _ hi]

/-- **C9.** For every input trace path of length `width`, the confidence
trimmer's output also has length `width`, and every output entry either
equals the corresponding input entry or is the "no data" sentinel -1: the
trimmer never alters a retained y-value and never turns a sentinel column
into a valid one. -/
theorem trimTracePath_shape (img : ImageData) (cutoff : α) (pathY : List ℤ)
    (hlen : pathY.length = img.width.toNat) :
    (trimTracePathByConfidence img cutoff pathY).length = img.width.toNat ∧
    ∀ i : ℕ, (trimTracePathByConfidence img cutoff pathY).getD i (-1) =
        pathY.getD i (-1) ∨
      (trimTracePathByConfidence img cutoff pathY).getD i (-1) = -1 := by
  have hid : trimTracePathByConfidence img cutoff pathY = pathY ∨
      ∃ best, trimTracePathByConfidence img cutoff pathY =
        trimmedPath pathY best := by
    unfold trimTracePathByConfidence
    by_cases h0 : pathY.length = 0
    · rw [if_pos h0]; exact Or.inl rfl
    · rw [if_neg h0]
      cases hbest : bestSpanOf (detectSpans
          (movingAverage1D (buildConfidence img cutoff pathY) 4)
          img.width.toNat) with
      | none => exact Or.inl rfl
      | some best =>
        by_cases hspan : spanLength best <
            max 12 (Int.floor ((img.width : α) * (3 / 20)))
        · exact Or.inl (if_pos hspan)
        · by_cases hkeep : (countValidPathPoints (trimmedPath pathY best) : ℤ) <
              max 10 (Int.floor ((img.width : α) * (2 / 25)))
          · exact Or.inl ((if_neg hspan).trans (if_pos hkeep))
          · exact Or.inr ⟨best, (if_neg hspan).trans (if_neg hkeep)⟩
  rcases hid with heq | ⟨best, heq⟩
  · rw [heq]
    exact ⟨hlen, fun i => Or.inl rfl⟩
  · rw [heq]
    refine ⟨by rw [trimmedPath_length, hlen], ?_⟩
    intro i
    by_cases hi : i < pathY.length
    · rw [trimmedPath_getD pathY best i hi]
      by_cases hcond : (i : ℤ) < best.1 ∨ best.2 < (i : ℤ)
      · rw [if_pos hcond]; exact Or.inr rfl
      · rw [if_neg hcond]; exact Or.inl rfl
    · right
      rw [List.getD_eq_default]
      rw [trimmedPath_length]
      omega

/-- Witness input: a 1x1 all-black buffer. -/
def blackOnePixel : ImageData :=
  { width := 1, height := 1, data := fun _ => 0 }

/-- Witness for the trimmer shape theorem on a concrete one-column path. -/
theorem trimTracePath_shape_witness :
    (trimTracePathByConfidence blackOnePixel (200 : ℚ) [-1]).length = 1 ∧
      ((trimTracePathByConfidence blackOnePixel (200 : ℚ) [-1]).getD 0 (-1) =
          ([-1] : List ℤ).getD 0 (-1) ∨
        (trimTracePathByConfidence blackOnePixel (200 : ℚ) [-1]).getD 0
          (-1) = -1) := by
  obtain ⟨h1, h2⟩ := trimTracePath_shape blackOnePixel (200 : ℚ) [-1] (by decide)
  exact ⟨h1, h2 0⟩

/-- The longest-span fold keeps an element of the candidates, no shorter
than any of them. -/
theorem bestSpan_foldl_spec (s : ℤ × ℤ) (rest : List (ℤ × ℤ)) :
    (rest.foldl (fun best t =>
        if spanLength t > spanLength best then t else best) s = s ∨
      rest.foldl (fun best t =>
        if spanLength t > spanLength best then t else best) s ∈ rest) ∧
    spanLength s ≤ spanLength (rest.foldl (fun best t =>
      if spanLength t > spanLength best then t else best) s) ∧
    ∀ t ∈ rest, spanLength t ≤ spanLength (rest.foldl (fun best t =>
      if spanLength t > spanLength best then t else best) s) := by
  induction rest generalizing s with
  | nil => exact ⟨Or.inl rfl, le_rfl, fun t ht => absurd ht (by simp)⟩
  | cons a rest ih =>
    simp only [List.foldl_cons]
    by_cases h : spanLength a > spanLength s
    · rw [if_pos h]
      obtain ⟨hmem, hle, hall⟩ := ih a
      refine ⟨?_, le_trans (le_of_lt h) hle, ?_⟩
      · rcases hmem with h1 | h1
        · exact Or.inr (by rw [h1]; exact List.mem_cons_self a rest)
        · exact Or.inr (List.mem_cons_of_mem a h1)
      · intro t ht
        rcases List.mem_cons.mp ht with rfl | ht2
        · exact hle
        · exact hall t ht2
    · rw [if_neg h]
      obtain ⟨hmem, hle, hall⟩ := ih s
      refine ⟨hmem.imp id (List.mem_cons_of_mem a), hle, ?_⟩
      intro t ht
      rcases List.mem_cons.mp ht with rfl | ht2
      · exact le_trans (not_lt.mp h) hle
      · exact hall t ht2

/-- The selected best span belongs to the span list and is longest. -/
theorem bestSpanOf_spec (spans : List (ℤ × ℤ)) (best : ℤ × ℤ)
    (h : bestSpanOf spans = some best) :
    best ∈ spans ∧ ∀ s ∈ spans, spanLength s ≤ spanLength best := by
  cases spans with
  | nil => simp [bestSpanOf] at h
  | cons a rest =>
    unfold bestSpanOf at h
    have hbest := Option.some_inj.mp h
    obtain ⟨hmem, hle, hall⟩ := bestSpan_foldl_spec a rest
    subst hbest
    constructor
    · rcases hmem with h1 | h1
      · rw [h1]; exact List.mem_cons_self a rest
      · exact List.mem_cons_of_mem a h1
    · intro s hs
      rcases List.mem_cons.mp hs with rfl | hs2
      · exact hle
      · exact hall s hs2

/-- **C4.** For every trace path and mask, the confidence trimmer keeps the
longest closed span; if no span closed at all, or that span's length is
below `max(minSpanColumnsFloor, floor(width * minSpanColumnsRatio))`, or
the trimmed path would retain fewer valid columns than
`max(minKeepValidColumnsFloor, floor(width * minKeepValidColumnsRatio))`,
the original untrimmed path is returned unchanged rather than failing;
otherwise every column outside the kept span is forced to the "no data"
sentinel and columns inside it are kept. -/
theorem trimTracePath_spec (img : ImageData) (cutoff : α) (pathY : List ℤ)
    (hlen : pathY.length = img.width.toNat) :
    (bestSpanOf (detectSpans
        (movingAverage1D (buildConfidence img cutoff pathY) 4)
        img.width.toNat) = none →
      trimTracePathByConfidence img cutoff pathY = pathY) ∧
    (∀ best, bestSpanOf (detectSpans
        (movingAverage1D (buildConfidence img cutoff pathY) 4)
        img.width.toNat) = some best →
      best ∈ detectSpans
        (movingAverage1D (buildConfidence img cutoff pathY) 4)
        img.width.toNat ∧
      (∀ s ∈ detectSpans
          (movingAverage1D (buildConfidence img cutoff pathY) 4)
          img.width.toNat, spanLength s ≤ spanLength best) ∧
      ((spanLength best < max 12 (Int.floor ((img.width : α) * (3 / 20))) ∨
        (countValidPathPoints (trimmedPath pathY best) : ℤ) <
          max 10 (Int.floor ((img.width : α) * (2 / 25)))) →
        trimTracePathByConfidence img cutoff pathY = pathY) ∧
      (max 12 (Int.floor ((img.width : α) * (3 / 20))) ≤ spanLength best →
        max 10 (Int.floor ((img.width : α) * (2 / 25))) ≤
          (countValidPathPoints (trimmedPath pathY best) : ℤ) →
        trimTracePathByConfidence img cutoff pathY = trimmedPath pathY best ∧
        ∀ x : ℕ, x < pathY.length →
          (((x : ℤ) < best.1 ∨ best.2 < (x : ℤ)) →
            (trimTracePathByConfidence img cutoff pathY).getD x (-1) = -1) ∧
          (best.1 ≤ (x : ℤ) → (x : ℤ) ≤ best.2 →
            (trimTracePathByConfidence img cutoff pathY).getD x (-1) =
              pathY.getD x (-1)))) := by
  by_cases h0 : pathY.length = 0
  · have hwidth : img.width.toNat = 0 := by omega
    have hspans : detectSpans
        (movingAverage1D (buildConfidence img cutoff pathY) 4)
        img.width.toNat = [] := by
      rw [hwidth]
      rfl
    constructor
    · intro _
      unfold trimTracePathByConfidence
      rw [if_pos h0]
    · intro best hbest
      rw [hspans] at hbest
      simp [bestSpanOf] at hbest
  · constructor
    · intro hnone
      unfold trimTracePathByConfidence
      rw [if_neg h0, hnone]
    · intro best hbest
      obtain ⟨hmem, hlong⟩ := bestSpanOf_spec _ best hbest
      have hbranch : trimTracePathByConfidence img cutoff pathY =
          (if spanLength best <
              max 12 (Int.floor ((img.width : α) * (3 / 20))) then pathY
          else if (countValidPathPoints (trimmedPath pathY best) : ℤ) <
              max 10 (Int.floor ((img.width : α) * (2 / 25))) then pathY
          else trimmedPath pathY best) := by
        unfold trimTracePathByConfidence
        rw [if_neg h0, hbest]
      refine ⟨hmem, hlong, ?_, ?_⟩
      · intro hcase
        rcases hcase with hspan | hkeep
        · rw [hbranch, if_pos hspan]
        · by_cases hspan : spanLength best <
              max 12 (Int.floor ((img.width : α) * (3 / 20)))
          · rw [hbranch, if_pos hspan]
          · rw [hbranch, if_neg hspan, if_pos hkeep]
      · intro hspan hkeep
        have heq : trimTracePathByConfidence img cutoff pathY =
            trimmedPath pathY best := by
          rw [hbranch, if_neg (not_lt.mpr hspan), if_neg (not_lt.mpr hkeep)]
        refine ⟨heq, ?_⟩
        intro x hx
        rw [heq, trimmedPath_getD pathY best x hx]
        constructor
        · intro hout
          rw [if_pos hout]
        · intro hin1 hin2
          rw [if_neg (by omega)]

/-- Witness for the trimmer-decision theorem: on a one-column path with a
sentinel entry no span closes, so the original path is returned. -/
theorem trimTracePath_spec_witness :
    trimTracePathByConfidence blackOnePixel (200 : ℚ) [-1] = [-1] := by
  have hconf : buildConfidence blackOnePixel (200 : ℚ) [-1] = [0] := by
    unfold buildConfidence
    rw [show ImageData.width blackOnePixel = 1 from rfl]
    rw [(by decide : ((1 : ℤ)).toNat = 1), (by decide : List.range 1 = [0])]
    norm_num [List.foldl_cons, List.foldl_nil]
  have havg : movingAverage1D (buildConfidence blackOnePixel (200 : ℚ) [-1]) 4 =
      [0] := by
    rw [hconf]
    unfold movingAverage1D
    rw [if_neg (by omega)]
    rw [(by norm_num : ([(0 : ℚ)] : List ℚ).length = 1),
      (by decide : List.range 1 = [0])]
    norm_num [List.foldl_cons, List.foldl_nil]
  have hspans : detectSpans
      (movingAverage1D (buildConfidence blackOnePixel (200 : ℚ) [-1]) 4)
      (ImageData.width blackOnePixel).toNat = [] := by
    rw [havg]
    unfold detectSpans detectSpansStep
    rw [show (ImageData.width blackOnePixel).toNat = 1 from rfl,
      (by decide : List.range 1 = [0])]
    norm_num [List.foldl_cons, List.foldl_nil]
  exact (trimTracePath_spec blackOnePixel (200 : ℚ) [-1] (by decide)).1
    (by rw [hspans]; rfl)

section TrackerTheorems

variable {α : Type} [LinearOrderedField α] [FloorRing α]

theorem tracePathAux_length (img : ImageData) (cutoff : α) (n : ℕ) :
    (tracePathAux img cutoff n).length = n := by
  induction n with
  | zero => rfl
  | succ n ih =>
    unfold tracePathAux
    rw [List.length_append, ih]
    rfl

/-- Each entry of the raw path is the trace step over the prefix built so
far: columns are written once, left to right. -/
theorem tracePathAux_getD (img : ImageData) (cutoff : α) (n k : ℕ)
    (hk : k < n) :
    (tracePathAux img cutoff n).getD k none =
      traceStep img cutoff (tracePathAux img cutoff k) k := by
  induction n with
  | zero => omega
  | succ n ih =>
    show (tracePathAux img cutoff n ++
      [traceStep img cutoff (tracePathAux img cutoff n) n]).getD k none = _
    rcases Nat.lt_succ_iff_lt_or_eq.mp hk with hlt | rfl
    · rw [List.getD_append _ _ _ _ (by rw [tracePathAux_length]; exact hlt)]
      exact ih hlt
    · have hlen : k < (tracePathAux img cutoff k ++
          [traceStep img cutoff (tracePathAux img cutoff k) k]).length := by
        rw [List.length_append, tracePathAux_length]
        simp
      rw [List.getD_eq_getElem _ _ hlen,
        List.getElem_append_right (tracePathAux_length img cutoff k).le]
      simp [tracePathAux_length]

/-- **C3.** In the tracker's left-to-right pass, for every column whose
centroid estimate (banded search with full-column fallback) is valid: if
the previous column's raw estimate is valid and the new estimate differs
from it by more than `maxJumpPx = 12`, the column is rejected and marked
"no data"; otherwise the estimate is accepted as that column's raw y. -/
theorem findCenterOfMassTracePathRaw_jump (img : ImageData) (cutoff : α)
    (x : ℕ) (hx : x < img.width.toNat) (est : α)
    (hest : columnEstimate img cutoff
      (if 0 < x then
        (findCenterOfMassTracePathRaw img cutoff).getD (x - 1) none
      else none)
      (if 1 < x then
        (findCenterOfMassTracePathRaw img cutoff).getD (x - 2) none
      else none) x = some est) :
    ((∃ p, 0 < x ∧
        (findCenterOfMassTracePathRaw img cutoff).getD (x - 1) none =
          some p ∧ 12 < |est - p|) →
      (findCenterOfMassTracePathRaw img cutoff).getD x none = none) ∧
    ((∀ p, 0 < x →
        (findCenterOfMassTracePathRaw img cutoff).getD (x - 1) none =
          some p → |est - p| ≤ 12) →
      (findCenterOfMassTracePathRaw img cutoff).getD x none = some est) := by
  have hprev : (if 0 < x then
      (tracePathAux img cutoff x).getD (x - 1) none else none) =
      (if 0 < x then
        (findCenterOfMassTracePathRaw img cutoff).getD (x - 1) none
      else none) := by
    by_cases h0 : 0 < x
    · rw [if_pos h0, if_pos h0, tracePathAux_getD img cutoff x (x - 1) (by omega),
        findCenterOfMassTracePathRaw,
        tracePathAux_getD img cutoff img.width.toNat (x - 1) (by omega)]
    · rw [if_neg h0, if_neg h0]
  have hprev2 : (if 1 < x then
      (tracePathAux img cutoff x).getD (x - 2) none else none) =
      (if 1 < x then
        (findCenterOfMassTracePathRaw img cutoff).getD (x - 2) none
      else none) := by
    by_cases h1 : 1 < x
    · rw [if_pos h1, if_pos h1, tracePathAux_getD img cutoff x (x - 2) (by omega),
        findCenterOfMassTracePathRaw,
        tracePathAux_getD img cutoff img.width.toNat (x - 2) (by omega)]
    · rw [if_neg h1, if_neg h1]
  have hval : (findCenterOfMassTracePathRaw img cutoff).getD x none =
      match (if 0 < x then
          (findCenterOfMassTracePathRaw img cutoff).getD (x - 1) none
        else none) with
      | some p => if |est - p| > 12 then none else some est
      | none => some est := by
    conv_lhs => rw [findCenterOfMassTracePathRaw,
      tracePathAux_getD img cutoff img.width.toNat x hx]
    simp only [traceStep]
    rw [hprev, hprev2, hest]
  constructor
  · intro ⟨p, h0, hp, hjump⟩
    rw [hval, if_pos h0, hp]
    exact if_pos hjump
  · intro hnojump
    by_cases h0 : 0 < x
    · cases hp : (findCenterOfMassTracePathRaw img cutoff).getD (x - 1) none with
      | none => rw [hval, if_pos h0, hp]
      | some p =>
        rw [hval, if_pos h0, hp]
        exact if_neg (not_lt.mpr (hnojump p h0 hp))
    · rw [hval, if_neg h0]
end TrackerTheorems

/-- Witness input for the tracker: a single column with three bright rows
below a dark one. -/
def brightColumn : ImageData :=
  { width := 1, height := 4, data := fun i => if i = 0 then 0 else 255 }

/-- Witness for the jump-rejection theorem: on the bright column the
centroid estimate 2 is valid, there is no previous column, and the tracker
records it. -/
theorem findCenterOfMassTracePathRaw_jump_witness :
    (findCenterOfMassTracePathRaw brightColumn (200 : ℚ)).getD 0 none =
      some 2 := by
  have hcom : computeColumnCOM brightColumn (200 : ℚ) 0 0 3 = some 2 := by
    unfold computeColumnCOM
    rw [(by decide : List.range' 0 (3 + 1 - 0) = [0, 1, 2, 3])]
    norm_num [List.foldl_cons, List.foldl_nil, brightColumn,
      minForegroundCount]
  have hmin : clampInt (Int.floor ((brightColumn.height : ℚ) * (1 / 2) - 20))
      0 (brightColumn.height - 1) = 0 := by
    rw [show brightColumn.height = (4 : ℤ) from rfl]
    norm_num [clampInt]
  have hmax : clampInt (Int.ceil ((brightColumn.height : ℚ) * (1 / 2) + 20))
      0 (brightColumn.height - 1) = 3 := by
    rw [show brightColumn.height = (4 : ℤ) from rfl]
    norm_num [clampInt]
  have hce : columnEstimate brightColumn (200 : ℚ) none none 0 = some 2 := by
    simp only [columnEstimate, hmin, hmax, Int.toNat_zero, Int.toNat_ofNat,
      hcom]
    rw [(by decide : Int.toNat 3 = 3), hcom]
  exact (findCenterOfMassTracePathRaw_jump brightColumn (200 : ℚ) 0
      (by decide) 2
      (by rw [if_neg (by omega), if_neg (by omega)]; exact hce)).2
    (fun p h0 _ => absurd h0 (by omega))

section MedianTheorems

variable {α : Type} [LinearOrderedField α] [FloorRing α]

/-- The centroid accumulator keeps nonnegative weight and weighted-row
sums. -/
theorem comFold_nonneg (img : ImageData) (cutoff : α) (x : ℕ)
    (ys : List ℕ) (acc : α × α × ℕ) (h1 : 0 ≤ acc.1) (h2 : 0 ≤ acc.2.1) :
    0 ≤ (ys.foldl
      (fun (acc : α × α × ℕ) y =>
        let brightness := img.data (y * img.width.toNat + x)
        if (brightness : α) < cutoff then acc
        else
          ((acc.1 + (brightness : α) / 255,
            acc.2.1 + (y : α) * ((brightness : α) / 255),
            acc.2.2 + 1) : α × α × ℕ)) acc).1 ∧
    0 ≤ (ys.foldl
      (fun (acc : α × α × ℕ) y =>
        let brightness := img.data (y * img.width.toNat + x)
        if (brightness : α) < cutoff then acc
        else
          ((acc.1 + (brightness : α) / 255,
            acc.2.1 + (y : α) * ((brightness : α) / 255),
            acc.2.2 + 1) : α × α × ℕ)) acc).2.1 := by
  induction ys generalizing acc with
  | nil => exact ⟨h1, h2⟩
  | cons y ys ih =>
    rw [List.foldl_cons]
    by_cases hb : ((img.data (y * img.width.toNat + x) : α)) < cutoff
    · rw [if_pos hb]
      exact ih acc h1 h2
    · rw [if_neg hb]
      exact ih _ (by positivity) (by positivity)

/-- A valid centroid is nonnegative. -/
theorem computeColumnCOM_nonneg (img : ImageData) (cutoff : α) (x : ℕ)
    (yMin yMax : ℕ) (v : α)
    (h : computeColumnCOM img cutoff x yMin yMax = some v) : 0 ≤ v := by
  unfold computeColumnCOM at h
  by_cases hcond : ((List.range' yMin (yMax + 1 - yMin)).foldl
      (fun (acc : α × α × ℕ) y =>
        let brightness := img.data (y * img.width.toNat + x)
        if (brightness : α) < cutoff then acc
        else
          ((acc.1 + (brightness : α) / 255,
            acc.2.1 + (y : α) * ((brightness : α) / 255),
            acc.2.2 + 1) : α × α × ℕ))
      ((0, 0, 0) : α × α × ℕ)).2.2 < minForegroundCount ∨
      ((List.range' yMin (yMax + 1 - yMin)).foldl
      (fun (acc : α × α × ℕ) y =>
        let brightness := img.data (y * img.width.toNat + x)
        if (brightness : α) < cutoff then acc
        else
          ((acc.1 + (brightness : α) / 255,
            acc.2.1 + (y : α) * ((brightness : α) / 255),
            acc.2.2 + 1) : α × α × ℕ))
      ((0, 0, 0) : α × α × ℕ)).1 ≤ 0
  · rw [if_pos hcond] at h
    exact absurd h (by simp)
  · rw [if_neg hcond] at h
    obtain ⟨hw, hwy⟩ := comFold_nonneg img cutoff x
      (List.range' yMin (yMax + 1 - yMin)) ((0, 0, 0) : α × α × ℕ)
      le_rfl le_rfl
    rw [← Option.some_inj.mp h]
    exact div_nonneg hwy hw

/-- A valid banded-with-fallback estimate is nonnegative. -/
theorem columnEstimate_nonneg (img : ImageData) (cutoff : α)
    (prev prev2 : Option α) (x : ℕ) (v : α)
    (h : columnEstimate img cutoff prev prev2 x = some v) : 0 ≤ v := by
  simp only [columnEstimate] at h
  cases hband : computeColumnCOM img cutoff x
      (clampInt (Int.floor ((match prev, prev2 with
        | some p, some p2 => p + (p - p2)
        | some p, none => p
        | none, _ => (img.height : α) * (1 / 2)) - 20)) 0
        (img.height - 1)).toNat
      (clampInt (Int.ceil ((match prev, prev2 with
        | some p, some p2 => p + (p - p2)
        | some p, none => p
        | none, _ => (img.height : α) * (1 / 2)) + 20)) 0
        (img.height - 1)).toNat with
  | some u =>
    rw [hband] at h
    rw [← Option.some_inj.mp h]
    exact computeColumnCOM_nonneg img cutoff x _ _ u hband
  | none =>
    rw [hband] at h
    exact computeColumnCOM_nonneg img cutoff x _ _ v h

/-- A valid tracker step value is nonnegative. -/
theorem traceStep_nonneg (img : ImageData) (cutoff : α)
    (acc : List (Option α)) (x : ℕ) (v : α)
    (h : traceStep img cutoff acc x = some v) : 0 ≤ v := by
  simp only [traceStep] at h
  cases hce : columnEstimate img cutoff
      (if 0 < x then acc.getD (x - 1) none else none)
      (if 1 < x then acc.getD (x - 2) none else none) x with
  | none =>
    rw [hce] at h
    exact absurd h (by simp)
  | some est =>
    rw [hce] at h
    have hnn := columnEstimate_nonneg img cutoff _ _ x est hce
    cases hprev : (if 0 < x then acc.getD (x - 1) none else none) with
    | none =>
      rw [hprev] at h
      replace h : some est = some v := h
      rw [← Option.some_inj.mp h]
      exact hnn
    | some p =>
      rw [hprev] at h
      replace h : (if |est - p| > 12 then (none : Option α)
          else some est) = some v := h
      by_cases hj : |est - p| > 12
      · rw [if_pos hj] at h
        exact absurd h (by simp)
      · rw [if_neg hj] at h
        rw [← Option.some_inj.mp h]
        exact hnn

/-- Every valid raw path value is nonnegative. -/
theorem tracePathRaw_nonneg (img : ImageData) (cutoff : α) (k : ℕ) (v : α)
    (h : (findCenterOfMassTracePathRaw img cutoff).getD k none = some v) :
    0 ≤ v := by
  by_cases hk : k < img.width.toNat
  · rw [findCenterOfMassTracePathRaw,
      tracePathAux_getD img cutoff img.width.toNat k hk] at h
    exact traceStep_nonneg img cutoff _ k v h
  · rw [List.getD_eq_default _ _ (by
      rw [findCenterOfMassTracePathRaw, tracePathAux_length]; omega)] at h
    exact absurd h (by simp)

/-- The median window is empty exactly when every entry in it is missing. -/
theorem getMedian_eq_none_iff (values : List (Option α)) (s f : ℕ) :
    getMedianOfFiniteWindow values s f = none ↔
      ∀ j, s ≤ j → j ≤ f → values.getD j none = none := by
  unfold getMedianOfFiniteWindow
  by_cases hlen : ((List.range' s (f + 1 - s)).filterMap
      (fun k => values.getD k none)).length = 0
  · rw [if_pos hlen]
    simp only [true_iff]
    intro j hj1 hj2
    have hempty : (List.range' s (f + 1 - s)).filterMap
        (fun k => values.getD k none) = [] := List.length_eq_zero.mp hlen
    have := List.filterMap_eq_nil.mp hempty j
      (List.mem_range'_1.mpr ⟨hj1, by omega⟩)
    exact this
  · rw [if_neg hlen]
    simp only [reduceCtorEq, false_iff, not_forall]
    have hne : (List.range' s (f + 1 - s)).filterMap
        (fun k => values.getD k none) ≠ [] := by
      intro hcon
      rw [hcon] at hlen
      exact hlen rfl
    obtain ⟨v, hv⟩ := List.exists_mem_of_ne_nil _ hne
    obtain ⟨j, hj, hjv⟩ := List.mem_filterMap.mp hv
    obtain ⟨hj1, hj2⟩ := List.mem_range'_1.mp hj
    exact ⟨j, hj1, by omega, by rw [hjv]; simp⟩

/-- A computed median comes from a present entry of the window. -/
theorem getMedian_mem (values : List (Option α)) (s f : ℕ) (m : α)
    (h : getMedianOfFiniteWindow values s f = some m) :
    ∃ j, s ≤ j ∧ j ≤ f ∧ values.getD j none = some m := by
  unfold getMedianOfFiniteWindow at h
  by_cases hlen : ((List.range' s (f + 1 - s)).filterMap
      (fun k => values.getD k none)).length = 0
  · rw [if_pos hlen] at h
    exact absurd h (by simp)
  · rw [if_neg hlen] at h
    have hm := Option.some_inj.mp h
    set finite := (List.range' s (f + 1 - s)).filterMap
      (fun k => values.getD k none) with hfin
    have hsortlen : (finite.insertionSort (· ≤ ·)).length = finite.length :=
      List.length_insertionSort _ _
    have hidx : finite.length / 2 < (finite.insertionSort (· ≤ ·)).length := by
      rw [hsortlen]; omega
    have hmem : m ∈ finite.insertionSort (· ≤ ·) := by
      rw [← hm, List.getD_eq_getElem _ _ hidx]
      exact List.getElem_mem hidx
    have hmem2 : m ∈ finite := (List.perm_insertionSort _ _).mem_iff.mp hmem
    obtain ⟨j, hj, hjv⟩ := List.mem_filterMap.mp hmem2
    obtain ⟨hj1, hj2⟩ := List.mem_range'_1.mp hj
    refine ⟨j, hj1, ?_, hjv⟩
    have : 0 < f + 1 - s := by
      by_contra hcon
      have : List.range' s (f + 1 - s) = [] := by
        have : f + 1 - s = 0 := by omega
        rw [this]
        rfl
      rw [this] at hj
      cases hj
    omega

end MedianTheorems

section MedianPass

variable {α : Type} [LinearOrderedField α] [FloorRing α]

theorem medianFilterFinite1D_getD (values : List (Option α)) (radius : ℕ)
    (hr : 0 < radius) (i : ℕ) (hi : i < values.length) :
    (medianFilterFinite1D values radius).getD i none =
      match getMedianOfFiniteWindow values (i - radius)
          (min (values.length - 1) (i + radius)) with
      | some m => some m
      | none => values.getD i none := by
  unfold medianFilterFinite1D
  rw [if_neg (by omega)]
  have hi2 : i < ((List.range values.length).map (fun i =>
      match getMedianOfFiniteWindow values (i - radius)
          (min (values.length - 1) (i + radius)) with
      | some m => some m
      | none => values.getD i none)).length := by
    rw [List.length_map, List.length_range]
    exact hi
  rw [List.getD_eq_getElem _ _ hi2]
  simp only [List.getElem_map, List.getElem_range]

theorem findCenterOfMassTracePath_getD (img : ImageData) (cutoff : α)
    (i : ℕ) (hi : i < img.width.toNat) :
    (findCenterOfMassTracePath img cutoff).getD i (-1) =
      match (medianFilterFinite1D (findCenterOfMassTracePathRaw img cutoff)
          medianRadius).getD i none with
      | some v => round v
      | none => -1 := by
  unfold findCenterOfMassTracePath
  have hi2 : i < ((List.range img.width.toNat).map (fun i =>
      match (medianFilterFinite1D (findCenterOfMassTracePathRaw img cutoff)
          medianRadius).getD i none with
      | some v => round v
      | none => -1)).length := by
    rw [List.length_map, List.length_range]
    exact hi
  rw [List.getD_eq_getElem _ _ hi2]
  simp only [List.getElem_map, List.getElem_range]

/-- **C10.** In the tracker's final median-filter pass, every column whose
raw estimate is the "no data" sentinel but whose window of radius
`medianRadius` contains at least one valid value is assigned the rounded
median of those valid values and leaves the tracker as a valid
(nonnegative, non-sentinel) data column; only columns whose entire window
contains no valid value remain sentinel in the tracker's output. -/
theorem findCenterOfMassTracePath_median (img : ImageData) (cutoff : α)
    (i : ℕ) (hi : i < img.width.toNat)
    (hraw : (findCenterOfMassTracePathRaw img cutoff).getD i none = none) :
    ((∃ j, i - medianRadius ≤ j ∧
        j ≤ min (img.width.toNat - 1) (i + medianRadius) ∧
        ((findCenterOfMassTracePathRaw img cutoff).getD j none).isSome) →
      ∃ m, getMedianOfFiniteWindow (findCenterOfMassTracePathRaw img cutoff)
          (i - medianRadius) (min (img.width.toNat - 1) (i + medianRadius)) =
          some m ∧
        (findCenterOfMassTracePath img cutoff).getD i (-1) = round m ∧
        0 ≤ (findCenterOfMassTracePath img cutoff).getD i (-1)) ∧
    ((∀ j, i - medianRadius ≤ j →
        j ≤ min (img.width.toNat - 1) (i + medianRadius) →
        (findCenterOfMassTracePathRaw img cutoff).getD j none = none) →
      (findCenterOfMassTracePath img cutoff).getD i (-1) = -1) := by
  have hrawlen : (findCenterOfMassTracePathRaw img cutoff).length =
      img.width.toNat := by
    rw [findCenterOfMassTracePathRaw, tracePathAux_length]
  have hpath := findCenterOfMassTracePath_getD img cutoff i hi
  have hsm := medianFilterFinite1D_getD
    (findCenterOfMassTracePathRaw img cutoff) medianRadius
    (by rw [medianRadius]; omega) i (by rw [hrawlen]; exact hi)
  rw [hrawlen] at hsm
  constructor
  · intro ⟨j, hj1, hj2, hjsome⟩
    cases hmed : getMedianOfFiniteWindow
        (findCenterOfMassTracePathRaw img cutoff) (i - medianRadius)
        (min (img.width.toNat - 1) (i + medianRadius)) with
    | none =>
      exfalso
      have := (getMedian_eq_none_iff _ _ _).mp hmed j hj1 hj2
      rw [this] at hjsome
      simp at hjsome
    | some m =>
      refine ⟨m, rfl, ?_, ?_⟩
      · rw [hpath, hsm, hmed]
      · rw [hpath, hsm, hmed]
        obtain ⟨j2, hj21, hj22, hj2v⟩ := getMedian_mem _ _ _ m hmed
        have hm0 : 0 ≤ m := tracePathRaw_nonneg img cutoff j2 m hj2v
        show (0 : ℤ) ≤ round m
        rw [round_eq]
        exact Int.le_floor.mpr (by push_cast; linarith)
  · intro hall
    have hmed : getMedianOfFiniteWindow
        (findCenterOfMassTracePathRaw img cutoff) (i - medianRadius)
        (min (img.width.toNat - 1) (i + medianRadius)) = none :=
      (getMedian_eq_none_iff _ _ _).mpr hall
    rw [hpath, hsm, hmed, hraw]

end MedianPass

/-- Witness input for the median pass: a single all-black column of two
rows. -/
def blackTwoTall : ImageData :=
  { width := 1, height := 2, data := fun _ => 0 }

/-- Witness for the median-pass theorem: with no valid value anywhere in
the window, the tracker's output column stays at the sentinel -1. -/
theorem findCenterOfMassTracePath_median_witness :
    (findCenterOfMassTracePath blackTwoTall (200 : ℚ)).getD 0 (-1) = -1 := by
  have hcom : computeColumnCOM blackTwoTall (200 : ℚ) 0 0 1 = none := by
    unfold computeColumnCOM
    rw [(by decide : List.range' 0 (1 + 1 - 0) = [0, 1])]
    norm_num [List.foldl_cons, List.foldl_nil, blackTwoTall,
      minForegroundCount]
  have hmin : clampInt (Int.floor ((blackTwoTall.height : ℚ) * (1 / 2) - 20))
      0 (blackTwoTall.height - 1) = 0 := by
    rw [show blackTwoTall.height = (2 : ℤ) from rfl]
    norm_num [clampInt]
  have hmax : clampInt (Int.ceil ((blackTwoTall.height : ℚ) * (1 / 2) + 20))
      0 (blackTwoTall.height - 1) = 1 := by
    rw [show blackTwoTall.height = (2 : ℤ) from rfl]
    norm_num [clampInt]
  have hce : columnEstimate blackTwoTall (200 : ℚ) none none 0 = none := by
    simp only [columnEstimate, hmin, hmax, Int.toNat_zero, Int.toNat_one]
    rw [show (blackTwoTall.height - 1).toNat = 1 from rfl, hcom]
  have hstep : traceStep blackTwoTall (200 : ℚ) [] 0 = none := by
    simp only [traceStep]
    norm_num [hce]
  have hraw : (findCenterOfMassTracePathRaw blackTwoTall (200 : ℚ)).getD 0
      none = none := by
    rw [show findCenterOfMassTracePathRaw blackTwoTall (200 : ℚ) =
      [traceStep blackTwoTall (200 : ℚ) [] 0] from rfl]
    show traceStep blackTwoTall (200 : ℚ) [] 0 = none
    exact hstep
  refine (findCenterOfMassTracePath_median blackTwoTall (200 : ℚ) 0
      (by decide) hraw).2 ?_
  intro j hj1 hj2
  have hj0 : j = 0 := by
    have h2 := hj2
    rw [show (ImageData.width blackTwoTall).toNat = 1 from rfl] at h2
    simp [medianRadius] at h2
    omega
  rw [hj0]
  exact hraw

section ExtractTheorem

variable {α : Type} [LinearOrderedField α] [FloorRing α]

theorem rotateWaveform_length (w : List α) (k : ℕ) :
    (rotateWaveform w k).length = w.length := by
  unfold rotateWaveform
  by_cases h2 : w.length < 2
  · rw [if_pos h2]
  · rw [if_neg h2]
    by_cases hz : k % w.length = 0
    · rw [if_pos hz]
    · rw [if_neg hz, List.length_map, List.length_range]

theorem alignWaveform_length (w : List α) :
    (alignWaveformStartToZeroCrossing w).length = w.length := by
  unfold alignWaveformStartToZeroCrossing
  by_cases h4 : w.length < 4
  · rw [if_pos h4]
  · rw [if_neg h4]
    cases hc : (List.range (w.length - 1)).foldl (crossingStep w) none with
    | some p =>
      obtain ⟨s, idx⟩ := p
      show (if 0 < idx then rotateWaveform w idx else w).length = w.length
      by_cases h0 : 0 < idx
      · rw [if_pos h0]; exact rotateWaveform_length w idx
      · rw [if_neg h0]
    | none =>
      cases hc2 : (List.range w.length).foldl (closestToZeroStep w) none with
      | some p =>
        obtain ⟨s, idx⟩ := p
        show (if 0 < idx then rotateWaveform w idx else w).length = w.length
        by_cases h0 : 0 < idx
        · rw [if_pos h0]; exact rotateWaveform_length w idx
        · rw [if_neg h0]
      | none => rfl

theorem anchorWaveform_length (w : List α) :
    (anchorWaveformEndpointsToZero w).length = w.length := by
  unfold anchorWaveformEndpointsToZero
  by_cases h2 : w.length < 2
  · rw [if_pos h2]
  · rw [if_neg h2, List.length_map, List.length_range]

theorem zeroAndCenterWaveform_length (w : List (Option α)) :
    (zeroAndCenterWaveform w).length = w.length := by
  unfold zeroAndCenterWaveform
  simp

theorem interpolateWaveform_length (w : List (Option α)) :
    (interpolateWaveform w).length = w.length :=
  (interpolateAux_spec w 0 (fun _ _ hcon => absurd hcon (by omega))).1

/-- **C7.** `extractWaveformFromImageData` returns `None` exactly when the
input buffer's dimensions are invalid (zero or negative width or height;
the non-finite case has no counterpart for integer dimensions), and for
every buffer with valid dimensions it returns a waveform of length equal to
the buffer's width. -/
theorem extractWaveformFromImageData_spec (img : ImageData) (cutoff : α) :
    (extractWaveformFromImageData img cutoff = none ↔
      img.width ≤ 0 ∨ img.height ≤ 0) ∧
    (∀ w, extractWaveformFromImageData img cutoff = some w →
      w.length = img.width.toNat) := by
  constructor
  · unfold extractWaveformFromImageData
    by_cases hdim : img.width ≤ 0 ∨ img.height ≤ 0
    · rw [if_pos hdim]
      simp [hdim]
    · rw [if_neg hdim]
      simp [hdim]
  · intro w hw
    unfold extractWaveformFromImageData at hw
    by_cases hdim : img.width ≤ 0 ∨ img.height ≤ 0
    · rw [if_pos hdim] at hw
      exact absurd hw (by simp)
    · rw [if_neg hdim] at hw
      rw [← Option.some_inj.mp hw]
      rw [anchorWaveform_length, alignWaveform_length, anchorWaveform_length,
        zeroAndCenterWaveform_length, interpolateWaveform_length,
        List.length_map, List.length_range]

/-- Witness for the extractor theorem: a valid 1x2 buffer yields a
waveform rather than `None`. -/
theorem extractWaveformFromImageData_spec_witness :
    extractWaveformFromImageData blackTwoTall (200 : ℚ) ≠ none :=
  fun h => absurd
    ((extractWaveformFromImageData_spec blackTwoTall (200 : ℚ)).1.mp h)
    (by decide)

end ExtractTheorem
